import Mathlib

/-!
# nsmbulib `_cAlgorithms.cpp`: a shallow embedding

The four buffer transforms of `src/nsmbulib/_cAlgorithms.cpp` (`decodeRGBA8`,
`decodeDXT5` with `DXTToRGB` and `DXT5ToRGBA`, `compress`, `decompress`) are
translated into Lean functions.

Conventions of the embedding

* A byte buffer is a `List Nat`; its elements are the values of the `u8` cells.
* `unsigned int` arithmetic is arithmetic on `Nat` reduced `% 2 ^ 32`, `u8`
  arithmetic is reduced `% 256`.
* The C functions have no error return at all.  A read the C code would make outside
  a buffer is undefined behaviour there; the embedding stops at such a read with a
  `Fault` that says which access it was.
* `decodeRGBA8` and `decodeDXT5` store at computed offsets of a buffer of fixed size: a
  store outside that buffer is a `Fault` as well, so `Except.ok` means that every access
  was inside its buffer.
* `compress` and `decompress` store through a pointer that only moves forward: their
  result is the sequence of all bytes stored, and the size of the buffer allocated for
  them is a value of its own (`compressAlloc`, `readOutsize`), to be compared with the
  length of that sequence.  `compressBuffer` is the buffer `compress` returns when that
  comparison holds.
* `DXT5ToRGBA` returns the address of its local variable `argb` (line 94).  The
  embedding of `DXT5ToRGBA` is the value of `argb` at that `return`; the read through
  the returned pointer (line 124), made after the lifetime of `argb` has ended, is a
  `Fault` of the caller `pixelDXT5`.
* A forward-only input pointer (`*data++`) is the list of the bytes not yet
  consumed.
-/

namespace Satoru

/-- Accesses of the C code that leave their buffer (undefined behaviour in C). -/
inductive Fault where
  /-- a read outside the buffer that is read from -/
  | readOutside
  /-- a read through `copy` in `decompress` before the first byte of the output -/
  | copyBeforeStart
  /-- a write outside the freshly allocated buffer -/
  | writeOutside
  /-- a signed `int` computation that leaves the 32-bit range -/
  | intOverflow
  /-- a read through a pointer to a local variable of a call that has returned -/
  | danglingRead
  /-- the iteration bound of a modelled `while` loop was too small -/
  | outOfFuel
  deriving DecidableEq, Repr

deriving instance DecidableEq for Except

/-! ## `compress` (source lines 131–145) -/

/-- Size of the buffer `compress` allocates: `new u8[size + (size+8)/8]`, in `u32`. -/
def compressAlloc (size : Nat) : Nat :=
  (size % 2 ^ 32 + (size + 8) % 2 ^ 32 / 8) % 2 ^ 32

/-- The `while (data < end)` loop of `compress`: the remaining input, the `u8`
counter `n`; the result is the sequence of bytes stored through `fake`. -/
def compressLoop : List Nat → Nat → List Nat
  | [], _ => []
  | b :: rest, n =>
    if n = 8 then
      0xFF :: b :: compressLoop rest ((0 + 1) % 256)
    else
      b :: compressLoop rest ((n + 1) % 256)

/-- The bytes `compress(data, size)` writes, in order, starting at `out`. -/
def compress (data : List Nat) : List Nat :=
  compressLoop data 8

/-- The loop variables of `decompress`: the unread input, the bytes written from
`result` up to `out`, and the `u8` variables `bits` and `code`. -/
structure DState where
  inp : List Nat
  out : List Nat
  bits : Nat
  code : Nat
  deriving DecidableEq, Repr

/-- The inner loop `while (n --> 0) *out++ = *copy++;` where `copy` is an index
into the bytes written so far. -/
def copyLoop : Nat → Nat → List Nat → Except Fault (List Nat)
  | 0, _, out => .ok out
  | n + 1, copy, out =>
    match out[copy]? with
    | some b => copyLoop n (copy + 1) (out ++ [b])
    | none => .error .copyBeforeStart

/-- Lines 156–159: fetch a new control byte when `bits == 0`.  Returns
`(code, bits, unread input)`. -/
def fetchControl (s : DState) : Except Fault (Nat × Nat × List Nat) :=
  if s.bits = 0 then
    match s.inp with
    | c :: rest => .ok (c, 8, rest)
    | [] => .error .readOutside
  else
    .ok (s.code, s.bits, s.inp)

/-- Lines 164–176: a back-reference token.  Returns the unread input and the
output after the copy. -/
def backRef (inp out : List Nat) : Except Fault (List Nat × List Nat) :=
  match inp with
  | b1 :: b2 :: rest =>
    let dist := ((b1 &&& 0xF) <<< 8 ||| b2) + 1
    let n := b1 >>> 4
    if n = 0 then
      match rest with
      | ext :: rest2 =>
        if out.length < dist then .error .copyBeforeStart
        else
          match copyLoop (ext + 0x12) (out.length - dist) out with
          | .error e => .error e
          | .ok o => .ok (rest2, o)
      | [] => .error .readOutside
    else
      if out.length < dist then .error .copyBeforeStart
      else
        match copyLoop (n + 2) (out.length - dist) out with
        | .error e => .error e
        | .ok o => .ok (rest, o)
  | _ => .error .readOutside

/-- One iteration of the body of `while (out < end)` (lines 156–179). -/
def step (s : DState) : Except Fault DState :=
  match fetchControl s with
  | .error e => .error e
  | .ok (code, bits, inp) =>
    if code &&& 0x80 ≠ 0 then
      match inp with
      | b :: rest => .ok ⟨rest, s.out ++ [b], bits - 1, (code <<< 1) % 256⟩
      | [] => .error .readOutside
    else
      match backRef inp s.out with
      | .error e => .error e
      | .ok (rest, o) => .ok ⟨rest, o, bits - 1, (code <<< 1) % 256⟩

/-- The loop `while (out < end)`, `end = result + outsize`.  Every iteration
writes at least one byte, so `outsize` iterations are enough. -/
def decompressLoop (outsize : Nat) : Nat → DState → Except Fault (List Nat)
  | 0, s => if s.out.length < outsize then .error .outOfFuel else .ok s.out
  | fuel + 1, s =>
    if s.out.length < outsize then
      match step s with
      | .error e => .error e
      | .ok s2 => decompressLoop outsize fuel s2
    else .ok s.out

/-- Line 148: the big-endian `u32` in bytes 4..7 of the stream. -/
def readOutsize (data : List Nat) : Except Fault Nat :=
  match data[4]?, data[5]?, data[6]?, data[7]? with
  | some a, some b, some c, some d => .ok ((a <<< 24 ||| b <<< 16 ||| c <<< 8 ||| d) % 2 ^ 32)
  | _, _, _, _ => .error .readOutside

/-- The function `decompress(data)`: all bytes stored through `out`, in order, starting
at `result`.  The buffer allocated for them has `outsize` bytes, so a result
longer than `outsize` means the C code wrote behind its allocation. -/
def decompress (data : List Nat) : Except Fault (List Nat) :=
  match readOutsize data with
  | .error e => .error e
  | .ok outsize => decompressLoop outsize outsize ⟨data.drop 16, [], 0, 0⟩

/-! ## Buffers and counted loops -/

/-- The `n` bytes of `buf` from offset `off`, when they all lie inside `buf`. -/
def readAt (buf : List Nat) (off n : Nat) : Option (List Nat) :=
  if off + n ≤ buf.length then some ((buf.drop off).take n) else none

/-- The buffer `buf` with `bytes` stored from offset `off`, when they all land inside. -/
def writeAt (buf : List Nat) (off : Nat) (bytes : List Nat) : Option (List Nat) :=
  if off + bytes.length ≤ buf.length then
    some (buf.take off ++ bytes ++ buf.drop (off + bytes.length))
  else none

/-- The loop `for (i = start; i < start + n; i++) body`, threading the buffer state. -/
def forLoop {σ : Type} (body : Nat → σ → Except Fault σ) : Nat → Nat → σ → Except Fault σ
  | 0, _, s => .ok s
  | n + 1, i, s =>
    match body i s with
    | .error e => .error e
    | .ok s2 => forLoop body n (i + 1) s2

/-! ## `decodeRGBA8` (source lines 17–40) -/

/-- Lines 21–28: the value of `pos` before `pos *= 4`, in `unsigned int`. -/
def posRGBA8 (x y w : Nat) : Nat :=
  ((y &&& 0xFFFFFFF0) * w) % 2 ^ 32
    ^^^ (x &&& 3)
    ^^^ ((x &&& 4) <<< 1)
    ^^^ ((x &&& 8) <<< 3)
    ^^^ (((x &&& 0xFFFFFFF8) <<< 4) % 2 ^ 32)
    ^^^ ((y &&& 0xE) <<< 3)
    ^^^ ((y &&& 0x10) <<< 4)
    ^^^ ((y &&& 0x21) <<< 2)

/-- Lines 22–28 without the `(y & ~15) * w` term and without reduction `% 2 ^ 32`: the
part of `pos` that does not depend on the width (used to analyse `posRGBA8`). -/
def lowRGBA8 (x y : Nat) : Nat :=
  (x &&& 3) ^^^ ((x &&& 4) <<< 1) ^^^ ((x &&& 8) <<< 3) ^^^ ((x &&& 0xFFFFFFF8) <<< 4)
    ^^^ ((y &&& 0xE) <<< 3) ^^^ ((y &&& 0x10) <<< 4) ^^^ ((y &&& 0x21) <<< 2)

/-- Lines 21–36: the body of the inner loop, one pixel. -/
def pixelRGBA8 (w : Nat) (data : List Nat) (y x : Nat) (output : List Nat) :
    Except Fault (List Nat) :=
  let pos := (posRGBA8 x y w * 4) % 2 ^ 32
  let dest := ((y * w + x) * 4) % 2 ^ 32
  match readAt data pos 4 with
  | none => .error .readOutside
  | some px =>
    match writeAt output dest px with
    | none => .error .writeOutside
    | some o => .ok o

/-- The function `decodeRGBA8(w, h, data)`.  The cells of the fresh `new char[w * h * 4]`
hold 0 until they are written. -/
def decodeRGBA8 (w h : Nat) (data : List Nat) : Except Fault (List Nat) :=
  forLoop (fun y out => forLoop (fun x o => pixelRGBA8 w data y x o) w 0 out) h 0
    (List.replicate ((w * h * 4) % 2 ^ 32) 0)

/-! ## `DXTToRGB`, `DXT5ToRGBA`, `decodeDXT5` (source lines 42–129)

The `int` parameters `w`, `h` of `decodeDXT5` are taken non-negative and are
naturals here; values are read little-endian, as on the x86 hosts the DLL is
built for. -/

/-- The function `DXTToRGB(pointer, i, j)`; `p` holds the 8 bytes from `pointer` on. -/
def DXTToRGB (p : List Nat) (i j : Nat) : Nat :=
  let color0 := p.getD 0 0 ||| p.getD 1 0 <<< 8
  let color1 := p.getD 2 0 ||| p.getD 3 0 <<< 8
  let bits := p.getD 4 0 ||| p.getD 5 0 <<< 8 ||| p.getD 6 0 <<< 16 ||| p.getD 7 0 <<< 24
  let bitpos := (2 * (j * 4 + i)) % 2 ^ 32
  let code := ((bits >>> bitpos) &&& 3) % 256
  let r0exp := ((color0 >>> 11) * 0xFF / 0x1F) % 256
  let g0exp := (((color0 >>> 5) &&& 0x3F) * 0xFF / 0x3F) % 256
  let b0exp := ((color0 &&& 0x1F) * 0xFF / 0x1F) % 256
  let r1exp := ((color1 >>> 11) * 0xFF / 0x1F) % 256
  let g1exp := (((color1 >>> 5) &&& 0x3F) * 0xFF / 0x3F) % 256
  let b1exp := ((color1 &&& 0x1F) * 0xFF / 0x1F) % 256
  if code = 0 then
    (b0exp <<< 16) ||| (g0exp <<< 8) ||| r0exp
  else if code = 1 then
    (b1exp <<< 16) ||| (g1exp <<< 8) ||| r1exp
  else if code = 2 then
    (((b0exp * 2 + b1exp) / 3) <<< 16) ||| (((g0exp * 2 + g1exp) / 3) <<< 8)
      ||| ((r0exp * 2 + r1exp) / 3)
  else
    (((b0exp + b1exp * 2) / 3) <<< 16) ||| (((g0exp + g1exp * 2) / 3) <<< 8)
      ||| ((r0exp + r1exp * 2) / 3)

/-- Lines 75–78 of `DXT5ToRGBA`: the alpha code of in-block pixel `(i, j)`; `blk`
holds the 16 bytes from `pointer` on. -/
def alphaCode (blk : List Nat) (i j : Nat) : Nat :=
  let bitpos := (((j &&& 3) * 4 + (i &&& 3)) * 3) % 256
  let acodelow := blk.getD (2 + bitpos / 8) 0
  let acodehigh := blk.getD (3 + bitpos / 8) 0
  ((acodelow >>> (bitpos &&& 7) ||| (acodehigh <<< (8 - (bitpos &&& 7)))) &&& 7) % 256

/-- Lines 81–92 of `DXT5ToRGBA`: the `u8` alpha value `a`. -/
def alphaValue (alpha0 alpha1 code : Nat) : Nat :=
  if code = 0 then alpha0
  else if code = 1 then alpha1
  else if alpha0 > alpha1 then
    ((alpha0 * (8 - code) + (alpha1 * (code - 1))) / 7) % 256
  else if code < 6 then
    ((alpha0 * (6 - code) + (alpha1 * (code - 1))) / 5) % 256
  else if code = 6 then 0
  else 255

/-- The function `DXT5ToRGBA(w, data, i, j)` up to its `return`: the four bytes of the
local variable `argb` in memory order, as they are when line 94 is reached.  The C function
does not return these bytes but `(char *)&argb`, the address of `argb`, whose lifetime ends
with the call; what the caller does with that pointer is part of `pixelDXT5`. -/
def DXT5ToRGBA (w : Nat) (data : List Nat) (i j : Nat) : Except Fault (List Nat) :=
  let ptr := (((w + 3) / 4 * (j / 4) + (i / 4)) * 16) % 2 ^ 32
  match readAt data ptr 16 with
  | none => .error .readOutside
  | some blk =>
    let alpha0 := blk.getD 0 0
    let alpha1 := blk.getD 1 0
    let code := alphaCode blk i j
    let argb := DXTToRGB (blk.drop 8) (i &&& 3) (j &&& 3)
    let a := alphaValue alpha0 alpha1 code
    let argb := (argb ||| a <<< 24) % 2 ^ 32
    .ok [argb % 256, argb / 2 ^ 8 % 256, argb / 2 ^ 16 % 256, argb / 2 ^ 24 % 256]

/-- Lines 103–111: the block index `pos` before `pos *= 16`. -/
def posDXT5 (x y bw : Nat) : Nat :=
  (((y >>> 4) * bw * 16) &&& 0xFFFF)
    ^^^ (y &&& 1)
    ^^^ ((x &&& 0xF) <<< 1)
    ^^^ ((x &&& 0x18) <<< 2)
    ^^^ ((x &&& 0xFFFFFFE0) <<< 4)
    ^^^ ((y &&& 6) <<< 6)
    ^^^ ((y &&& 8) <<< 1)
    ^^^ ((y &&& 0x10) <<< 2)
    ^^^ (y &&& 0x20)

/-- Lines 104–111 without the `((y >> 4) * bw * 16) & 0xFFFF` term: the part of `pos`
that does not depend on the grid width (used to analyse `posDXT5`). -/
def lowDXT5 (x y : Nat) : Nat :=
  (y &&& 1) ^^^ ((x &&& 0xF) <<< 1) ^^^ ((x &&& 0x18) <<< 2) ^^^ ((x &&& 0xFFFFFFE0) <<< 4)
    ^^^ ((y &&& 6) <<< 6) ^^^ ((y &&& 8) <<< 1) ^^^ ((y &&& 0x10) <<< 2) ^^^ (y &&& 0x20)

/-- Lines 103–115: the body of the block de-swizzle loop, one block. -/
def blockCopy (bw : Nat) (data : List Nat) (y x : Nat) (work : List Nat) :
    Except Fault (List Nat) :=
  let pos := posDXT5 x y bw
  let dest := (y * bw + x) * 16
  if 2 ^ 31 ≤ pos * 16 then .error .intOverflow
  else
    match readAt data (pos * 16) 16 with
    | none => .error .readOutside
    | some blk =>
      match writeAt work dest blk with
      | none => .error .writeOutside
      | some wk => .ok wk

/-- Line 123: the offset `dest` of pixel (x, y) in the output buffer, in `u32`. -/
def destDXT5 (w x y : Nat) : Nat :=
  ((y * w + x) * 4) % 2 ^ 32

/-- Lines 122–124: the body of the pixel loop, one pixel.  `outval` is the pointer
`DXT5ToRGBA` returned, the address of the local `argb` of a call that is over; the
`memcpy(output+dest, outval, 4)` of line 124 reads its four bytes through it.  That read
comes before the store at `output + destDXT5 w x y` and is a `Fault`: no byte is taken
from the dead variable and `output` is left as it was. -/
def pixelDXT5 (w : Nat) (work : List Nat) (y x : Nat) (_output : List Nat) :
    Except Fault (List Nat) :=
  match DXT5ToRGBA w work x y with
  | .error e => .error e
  | .ok _ => .error .danglingRead

/-- Lines 98–117: the block pass of `decodeDXT5`, which fills the work buffer
`new u8[w * h]` with the blocks of `data` in row-major order.  The cells of the fresh
buffer hold 0 until they are written. -/
def deswizzleDXT5 (w h : Nat) (data : List Nat) : Except Fault (List Nat) :=
  let bw := w / 4
  let bh := h / 4
  forLoop (fun y wk => forLoop (fun x k => blockCopy bw data y x k) bw 0 wk) bh 0
    (List.replicate (w * h) 0)

/-- The function `decodeDXT5(w, h, data)`: the block pass, then the pixel pass (lines
119–126) over the fresh `new u8[w * h * 4]`. -/
def decodeDXT5 (w h : Nat) (data : List Nat) : Except Fault (List Nat) :=
  if 2 ^ 31 ≤ w * h * 4 then .error .intOverflow
  else
    match deswizzleDXT5 w h data with
    | .error e => .error e
    | .ok work =>
      forLoop (fun y out => forLoop (fun x o => pixelDXT5 w work y x o) w 0 out) h 0
        (List.replicate (w * h * 4) 0)

/-! ## Definitions used to state the claims -/

/-- Line 166: the distance of a back-reference token, `out - copy`. -/
def backRefDistance (b1 b2 : Nat) : Nat :=
  ((b1 &&& 0xF) <<< 8 ||| b2) + 1

/-- Lines 167–173: the number `n` of bytes a back-reference token copies; `ext` is the
byte read by `*data++` when `b1 >> 4` is zero. -/
def backRefLength (b1 ext : Nat) : Nat :=
  if b1 >>> 4 = 0 then ext + 0x12 else b1 >>> 4 + 2

/-- The state after `k` iterations of the body of `while (out < end)`. -/
def runSteps : Nat → DState → Except Fault DState
  | 0, s => .ok s
  | k + 1, s =>
    match step s with
    | .error e => .error e
    | .ok s2 => runSteps k s2

/-- The token data is exhausted at the next iteration: the control byte, the literal
byte, one of `b1`, `b2`, or the extension byte is not there any more. -/
def tokenExhausted (s : DState) : Bool :=
  match fetchControl s with
  | .error _ => true
  | .ok (code, _, inp) =>
    if code &&& 0x80 ≠ 0 then inp.isEmpty
    else
      match inp with
      | b1 :: _ :: rest => decide (b1 >>> 4 = 0) && rest.isEmpty
      | _ => true

/-- The next token is a complete back-reference whose distance is greater than the
number of bytes written so far. -/
def backRefTooFar (s : DState) : Bool :=
  match fetchControl s with
  | .ok (code, _, b1 :: b2 :: rest) =>
    decide (code &&& 0x80 = 0) && (decide (b1 >>> 4 ≠ 0) || !rest.isEmpty)
      && decide (s.out.length < backRefDistance b1 b2)
  | _ => false

/-- The consecutive chunks of 8 bytes of `x`, the last one possibly shorter, none when
`x` is empty; the first argument bounds the number of chunks. -/
def chunksOf8 : Nat → List Nat → List (List Nat)
  | 0, _ => []
  | fuel + 1, x => if x = [] then [] else x.take 8 :: chunksOf8 fuel (x.drop 8)

/-- The encoding in the words of the specification (section 4.3): every chunk of 8
literal bytes prefixed by the control byte of all ones. -/
def literalGroups (x : List Nat) : List Nat :=
  ((chunksOf8 x.length x).map (fun c => 0xFF :: c)).flatten

/-- The alpha value in the words of the specification (section 4.2, Alpha): index 0 is
`alpha0`, index 1 is `alpha1`; for `alpha0 > alpha1` the indices 2..7 interpolate on a
7-step ramp; otherwise 2..5 interpolate on a 5-step ramp, 6 is 0 and 7 is 255. -/
def alphaRamp (alpha0 alpha1 code : Nat) : Nat :=
  if code = 0 then alpha0
  else if code = 1 then alpha1
  else if alpha0 > alpha1 then (alpha0 * (8 - code) + alpha1 * (code - 1)) / 7
  else if code ≤ 5 then (alpha0 * (6 - code) + alpha1 * (code - 1)) / 5
  else if code = 6 then 0
  else 255

/-! ## The stream codec -/

theorem compressLoop_length (x : List Nat) :
    ∀ n, 1 ≤ n → n ≤ 8 → (compressLoop x n).length = x.length + (x.length + n - 1) / 8 := by
  induction x with
  | nil => intro n h1 h8; simp [compressLoop]; omega
  | cons b rest ih =>
    intro n h1 h8
    by_cases h : n = 8
    · subst h
      simp only [compressLoop, if_true, List.length_cons]
      rw [ih ((0 + 1) % 256) (by norm_num) (by norm_num)]
      norm_num
      omega
    · simp only [compressLoop, if_neg h, List.length_cons]
      have hn : (n + 1) % 256 = n + 1 := Nat.mod_eq_of_lt (by omega)
      rw [hn, ih (n + 1) (by omega) (by omega)]
      omega

theorem copyLoop_length (n : Nat) :
    ∀ (copy : Nat) (out o : List Nat), copyLoop n copy out = .ok o → o.length = out.length + n := by
  induction n with
  | zero => intro copy out o h; simp [copyLoop] at h; simp [h]
  | succ n ih =>
    intro copy out o h
    unfold copyLoop at h
    cases hb : out[copy]? with
    | none => simp [hb] at h
    | some b =>
      simp only [hb] at h
      have := ih _ _ _ h
      simp at this
      omega

theorem copyLoop_fault (n : Nat) :
    ∀ (copy : Nat) (out : List Nat) (e : Fault), copyLoop n copy out = .error e →
      e = .copyBeforeStart := by
  induction n with
  | zero => intro copy out e h; simp [copyLoop] at h
  | succ n ih =>
    intro copy out e h
    unfold copyLoop at h
    split at h
    · exact ih _ _ _ h
    · simp at h; exact h.symm

theorem backRef_spec (inp out : List Nat) :
    (∀ rest o, backRef inp out = .ok (rest, o) → out.length < o.length) ∧
    (∀ e, backRef inp out = .error e → e ≠ .outOfFuel) := by
  rcases inp with _ | ⟨b1, _ | ⟨b2, rest⟩⟩
  · simp [backRef]
  · simp [backRef]
  · by_cases hn : b1 >>> 4 = 0
    · rcases rest with _ | ⟨ext, rest2⟩
      · simp [backRef, hn]
      · by_cases hd : out.length < ((b1 &&& 0xF) <<< 8 ||| b2) + 1
        · simp [backRef, hn, hd]
        · cases hc : copyLoop (ext + 0x12) (out.length - (((b1 &&& 0xF) <<< 8 ||| b2) + 1)) out with
          | error e =>
            have := copyLoop_fault _ _ _ _ hc
            simp [backRef, hn, hd, hc, this]
          | ok o =>
            have := copyLoop_length _ _ _ _ hc
            simp [backRef, hn, hd, hc]
            omega
    · by_cases hd : out.length < ((b1 &&& 0xF) <<< 8 ||| b2) + 1
      · simp [backRef, hn, hd]
      · cases hc : copyLoop (b1 >>> 4 + 2) (out.length - (((b1 &&& 0xF) <<< 8 ||| b2) + 1)) out with
        | error e =>
          have := copyLoop_fault _ _ _ _ hc
          simp [backRef, hn, hd, hc, this]
        | ok o =>
          have := copyLoop_length _ _ _ _ hc
          simp [backRef, hn, hd, hc]
          omega

theorem step_spec (s : DState) :
    (∀ s2, step s = .ok s2 → s.out.length < s2.out.length) ∧
    (∀ e, step s = .error e → e ≠ .outOfFuel) := by
  unfold step
  cases hf : fetchControl s with
  | error e =>
    simp only
    refine ⟨by simp, ?_⟩
    intro e2 h
    injection h with h
    subst h
    unfold fetchControl at hf
    split at hf
    · split at hf
      · simp at hf
      · simp at hf; rw [← hf]; simp
    · simp at hf
  | ok v =>
    obtain ⟨code, bits, inp⟩ := v
    simp only
    by_cases hc : code &&& 0x80 ≠ 0
    · rw [if_pos hc]
      rcases inp with _ | ⟨b, rest⟩
      · simp
      · simp
    · rw [if_neg hc]
      cases hb : backRef inp s.out with
      | error e =>
        simp only
        refine ⟨by simp, ?_⟩
        intro e2 h
        injection h with h
        subst h
        exact (backRef_spec _ _).2 _ hb
      | ok v =>
        obtain ⟨rest, o⟩ := v
        simp only
        refine ⟨?_, by simp⟩
        intro s2 h
        injection h with h
        subst h
        exact (backRef_spec _ _).1 _ _ hb

/-- The iteration bound `outsize` of `decompressLoop` is never the reason for a fault. -/
theorem decompressLoop_fuel (outsize : Nat) :
    ∀ (fuel : Nat) (s : DState), outsize ≤ s.out.length + fuel →
      decompressLoop outsize fuel s ≠ .error .outOfFuel := by
  intro fuel
  induction fuel with
  | zero =>
    intro s h
    have : ¬ (s.out.length < outsize) := by omega
    simp [decompressLoop, this]
  | succ f ih =>
    intro s h
    unfold decompressLoop
    split
    · cases hs : step s with
      | error e =>
        simp only
        intro hc
        injection hc with hc
        exact (step_spec s).2 e hs hc
      | ok s2 =>
        simp only
        have := (step_spec s).1 _ hs
        exact ih s2 (by omega)
    · simp

/-- When the loop of `decompress` ends, at least `outsize` bytes have been stored. -/
theorem decompressLoop_length_ge (outsize : Nat) :
    ∀ (fuel : Nat) (s : DState) (o : List Nat),
      decompressLoop outsize fuel s = .ok o → outsize ≤ o.length := by
  intro fuel
  induction fuel with
  | zero =>
    intro s o h
    unfold decompressLoop at h
    split at h
    · simp at h
    · injection h with h
      rw [← h]; omega
  | succ f ih =>
    intro s o h
    unfold decompressLoop at h
    split at h
    · cases hs : step s with
      | error e => simp [hs] at h
      | ok s2 =>
        simp only [hs] at h
        exact ih s2 o h
    · injection h with h
      rw [← h]; omega

theorem copyLoop_run (n : Nat) :
    ∀ (pre : List Nat) (X j : Nat),
      copyLoop n (pre.length + j) (pre ++ X :: List.replicate j X)
        = .ok (pre ++ X :: List.replicate (j + n) X) := by
  induction n with
  | zero => intro pre X j; simp [copyLoop]
  | succ n ih =>
    intro pre X j
    have hget : (pre ++ X :: List.replicate j X)[pre.length + j]? = some X := by
      rw [List.getElem?_append_right (by omega)]
      have : X :: List.replicate j X = List.replicate (j + 1) X := rfl
      rw [this, List.getElem?_replicate]
      simp
    have happ : pre ++ X :: List.replicate j X ++ [X] = pre ++ X :: List.replicate (j + 1) X := by
      rw [List.replicate_succ', List.append_assoc]
      rfl
    unfold copyLoop
    simp only [hget, happ]
    rw [show pre.length + j + 1 = pre.length + (j + 1) from rfl, ih pre X (j + 1)]
    rw [show j + 1 + n = j + (n + 1) by omega]

/-- A back-reference with `(b1 & 0xF) == 0` and `b2 == 0` after an output that ends in
`X`: the copy loop of `n` rounds appends `n` times `X`. -/
theorem copyLoop_last (n : Nat) (pre : List Nat) (X : Nat) :
    copyLoop n ((pre ++ [X]).length - 1) (pre ++ [X])
      = .ok ((pre ++ [X]) ++ List.replicate n X) := by
  have := copyLoop_run n pre X 0
  simp at this
  simp [this]

/-! ### Claims on the stream codec -/

/-- C1 (as evaluated on the code): the stream declares 2 output bytes, holds the literal 7
and then a back-reference of length 3 at distance 1; `decompress` stores 4 bytes through
`out`, two of them behind the 2-byte buffer it allocated, instead of exactly 2. -/
theorem decompress_overrun :
    readOutsize [0,0,0,0, 0,0,0,2, 0,0,0,0, 0,0,0,0, 0x80, 7, 0x10, 0] = .ok 2 ∧
    decompress [0,0,0,0, 0,0,0,2, 0,0,0,0, 0,0,0,0, 0x80, 7, 0x10, 0] = .ok [7, 7, 7, 7] := by
  decide

/-- C3: for every input of length `n`, `compress` writes exactly `n + ⌈n/8⌉` bytes. -/
theorem compress_length (x : List Nat) :
    (compress x).length = x.length + (x.length + 7) / 8 := by
  have := compressLoop_length x 8 (by norm_num) (by norm_num)
  simpa [compress] using this

/-- C9 (as stated, refuted): after the single output byte 7, the back-reference token
`b1 = 0x00, b2 = 0x00` takes a third byte (here 0) and appends 18 bytes, not two. -/
theorem backref_zero_zero_not_two :
    step ⟨[0, 0, 0], [7], 7, 0⟩ = .ok ⟨[], List.replicate 19 7, 6, 0⟩ ∧
    (step ⟨[0, 0, 0], [7], 7, 0⟩).toOption.map DState.out ≠ some [7, 7, 7] := by
  decide

/-- C9 (amended): when exactly one byte `X` is written and the next token is a
back-reference with `b1 = 0x00` and `b2 = 0x00`, the token is of the extended form: a
third byte `ext` is consumed, and `ext + 18` copies of `X` (distance 1) are appended. -/
theorem backref_zero_zero (s : DState) (code bits X ext : Nat) (rest : List Nat)
    (hf : fetchControl s = .ok (code, bits, 0 :: 0 :: ext :: rest)) (hc : code &&& 0x80 = 0)
    (hout : s.out = [X]) :
    step s = .ok ⟨rest, [X] ++ List.replicate (ext + 18) X, bits - 1, (code <<< 1) % 256⟩ := by
  have hcl := copyLoop_last (ext + 18) [] X
  simp only [List.nil_append, List.length_singleton, Nat.sub_self] at hcl
  simp [step, hf, hc, backRef, hout, hcl]

theorem backref_zero_zero_witness :
    step ⟨[0, 0, 0, 9], [7], 7, 0⟩ = .ok ⟨[9], [7] ++ List.replicate (0 + 18) 7, 7 - 1, (0 <<< 1) % 256⟩ :=
  backref_zero_zero ⟨[0, 0, 0, 9], [7], 7, 0⟩ 0 7 7 0 [9] (by decide) (by decide) rfl

/-- C10: in a state whose output ends in `X`, a back-reference token with distance 1
(`b1 & 0xF = 0` and `b2 = 0`) appends exactly `L` copies of `X`, where `L` is the decoded
length: `(b1 >> 4) + 2` when `b1 >> 4` is not zero, else `ext + 18` for the extension
byte `ext`. -/
theorem backref_distance_one (s : DState) (code bits b1 b2 X : Nat) (rest pre : List Nat)
    (hf : fetchControl s = .ok (code, bits, b1 :: b2 :: rest)) (hc : code &&& 0x80 = 0)
    (hout : s.out = pre ++ [X]) (h1 : b1 &&& 0xF = 0) (h2 : b2 = 0) :
    (b1 >>> 4 ≠ 0 →
      step s = .ok ⟨rest, s.out ++ List.replicate (b1 >>> 4 + 2) X, bits - 1, (code <<< 1) % 256⟩) ∧
    (b1 >>> 4 = 0 → ∀ ext rest2, rest = ext :: rest2 →
      step s = .ok ⟨rest2, s.out ++ List.replicate (ext + 18) X, bits - 1, (code <<< 1) % 256⟩) := by
  constructor
  · intro hn
    have hcl := copyLoop_last (b1 >>> 4 + 2) pre X
    simp only [List.length_append, List.length_singleton, Nat.add_sub_cancel] at hcl
    simp [step, hf, hc, backRef, hout, h1, h2, hn, hcl]
  · intro hn ext rest2 hr
    have hcl := copyLoop_last (ext + 18) pre X
    simp only [List.length_append, List.length_singleton, Nat.add_sub_cancel] at hcl
    subst hr
    simp [step, hf, hc, backRef, hout, h1, h2, hn, hcl]

theorem backref_distance_one_witness :
    (0x30 >>> 4 ≠ 0 →
      step ⟨[0x30, 0, 9], [1, 7], 7, 0⟩
        = .ok ⟨[9], [1, 7] ++ List.replicate (0x30 >>> 4 + 2) 7, 7 - 1, (0 <<< 1) % 256⟩) ∧
    (0x30 >>> 4 = 0 → ∀ ext rest2, [9] = ext :: rest2 →
      step ⟨[0x30, 0, 9], [1, 7], 7, 0⟩
        = .ok ⟨rest2, [1, 7] ++ List.replicate (ext + 18) 7, 7 - 1, (0 <<< 1) % 256⟩) :=
  backref_distance_one ⟨[0x30, 0, 9], [1, 7], 7, 0⟩ 0 7 0x30 0 7 [9] [1] (by decide) (by decide)
    rfl (by decide) rfl

/-! ## Bit-level facts -/
theorem testBit_of_lt_pow (c n i : Nat) (hc : c < 2 ^ n) (hi : n ≤ i) : c.testBit i = false :=
  Nat.testBit_lt_two_pow (lt_of_lt_of_le hc (Nat.pow_le_pow_right (by norm_num) hi))

theorem tb_3 (i : Nat) : Nat.testBit 3 i = decide (i < 2) := by
  rcases Nat.lt_or_ge i 2 with h | h
  · interval_cases i <;> rfl
  · rw [testBit_of_lt_pow 3 2 i (by norm_num) h]; symm; simp; omega

theorem tb_4 (i : Nat) : Nat.testBit 4 i = decide (i = 2) := by
  rcases Nat.lt_or_ge i 3 with h | h
  · interval_cases i <;> rfl
  · rw [testBit_of_lt_pow 4 3 i (by norm_num) h]; symm; simp; omega

theorem tb_8 (i : Nat) : Nat.testBit 8 i = decide (i = 3) := by
  rcases Nat.lt_or_ge i 4 with h | h
  · interval_cases i <;> rfl
  · rw [testBit_of_lt_pow 8 4 i (by norm_num) h]; symm; simp; omega

theorem tb_E (i : Nat) : Nat.testBit 0xE i = decide (1 ≤ i ∧ i < 4) := by
  rcases Nat.lt_or_ge i 4 with h | h
  · interval_cases i <;> rfl
  · rw [testBit_of_lt_pow 0xE 4 i (by norm_num) h]; symm; simp; omega

theorem tb_10 (i : Nat) : Nat.testBit 0x10 i = decide (i = 4) := by
  rcases Nat.lt_or_ge i 5 with h | h
  · interval_cases i <;> rfl
  · rw [testBit_of_lt_pow 0x10 5 i (by norm_num) h]; symm; simp; omega

theorem tb_21 (i : Nat) : Nat.testBit 0x21 i = decide (i = 0 ∨ i = 5) := by
  rcases Nat.lt_or_ge i 6 with h | h
  · interval_cases i <;> rfl
  · rw [testBit_of_lt_pow 0x21 6 i (by norm_num) h]; symm; simp; omega

theorem tb_F8 (i : Nat) : Nat.testBit 0xFFFFFFF8 i = decide (3 ≤ i ∧ i < 32) := by
  rcases Nat.lt_or_ge i 32 with h | h
  · interval_cases i <;> rfl
  · rw [testBit_of_lt_pow 0xFFFFFFF8 32 i (by norm_num) h]; symm; simp; omega

theorem tb_F0 (i : Nat) : Nat.testBit 0xFFFFFFF0 i = decide (4 ≤ i ∧ i < 32) := by
  rcases Nat.lt_or_ge i 32 with h | h
  · interval_cases i <;> rfl
  · rw [testBit_of_lt_pow 0xFFFFFFF0 32 i (by norm_num) h]; symm; simp; omega

theorem xor_eq_add_of_lt (a b n : Nat) (hb : b < 2 ^ n) : (2 ^ n * a) ^^^ b = 2 ^ n * a + b := by
  apply Nat.eq_of_testBit_eq
  intro j
  rw [Nat.testBit_xor, Nat.testBit_mul_pow_two_add a hb, Nat.testBit_mul_pow_two]
  by_cases hj : j < n
  · have : ¬ (j ≥ n) := by omega
    simp [hj, this]
  · have hge : j ≥ n := by omega
    have := testBit_of_lt_pow b n j hb hge
    simp [hj, hge, this]

theorem and_F0_eq (y : Nat) (hy : y < 2 ^ 32) : y &&& 0xFFFFFFF0 = 2 ^ 4 * (y >>> 4) := by
  apply Nat.eq_of_testBit_eq
  intro i
  rw [Nat.testBit_and, tb_F0, Nat.testBit_mul_pow_two, Nat.testBit_shiftRight]
  by_cases h4 : 4 ≤ i
  · by_cases h32 : i < 32
    · have : 4 + (i - 4) = i := by omega
      simp [h4, h32, this]
    · have := testBit_of_lt_pow y 32 i hy (by omega)
      have e : 4 + (i - 4) = i := by omega
      simp [h4, h32, this, e]
  · simp [h4]

theorem lowRGBA8_bits (x y : Nat) :
    (lowRGBA8 x y).testBit 0 = x.testBit 0 ∧
    (lowRGBA8 x y).testBit 1 = x.testBit 1 ∧
    (lowRGBA8 x y).testBit 2 = y.testBit 0 ∧
    (lowRGBA8 x y).testBit 3 = x.testBit 2 ∧
    (lowRGBA8 x y).testBit 4 = y.testBit 1 ∧
    (lowRGBA8 x y).testBit 5 = y.testBit 2 ∧
    (lowRGBA8 x y).testBit 6 = (x.testBit 3 ^^ y.testBit 3) ∧
    (lowRGBA8 x y).testBit 7 = (x.testBit 3 ^^ y.testBit 5) ∧
    (lowRGBA8 x y).testBit 8 = (x.testBit 4 ^^ y.testBit 4) := by
  refine ⟨?_, ?_, ?_, ?_, ?_, ?_, ?_, ?_, ?_⟩ <;>
    simp [-Nat.testBit_zero, lowRGBA8, tb_3, tb_4, tb_8, tb_E, tb_10, tb_21, tb_F8]

theorem lowRGBA8_high (x y i : Nat) (hx : x < 2 ^ 28) (hi : 9 ≤ i) :
    (lowRGBA8 x y).testBit i = x.testBit (i - 4) := by
  have a1 : ¬ (i < 2) := by omega
  have a2 : ¬ (i = 3) := by omega
  have a3 : ¬ (i - 3 = 3) := by omega
  have a4 : ¬ (i - 3 < 4) := by omega
  have a5 : ¬ (i - 4 = 4) := by omega
  have a6 : ¬ (i - 2 = 0) := by omega
  have a7 : ¬ (i - 2 = 5) := by omega
  have a8 : 4 ≤ i := by omega
  have a9 : 3 ≤ i - 4 := by omega
  by_cases h32 : i - 4 < 32
  · simp [-Nat.testBit_zero, lowRGBA8, tb_3, tb_4, tb_8, tb_E, tb_10, tb_21, tb_F8,
      a1, a2, a3, a4, a5, a6, a7, a8, a9, h32]
  · have := testBit_of_lt_pow x 28 (i - 4) hx (by omega)
    simp [-Nat.testBit_zero, lowRGBA8, tb_3, tb_4, tb_8, tb_E, tb_10, tb_21, tb_F8,
      a1, a2, a3, a4, a5, a6, a7, a8, a9, h32, this]

theorem lowRGBA8_lt (x y k : Nat) (hk : 5 ≤ k) (hk2 : k ≤ 28) (hx : x < 2 ^ k) :
    lowRGBA8 x y < 2 ^ (k + 4) := by
  apply Nat.lt_pow_two_of_testBit
  intro i hi
  have hx28 : x < 2 ^ 28 := lt_of_lt_of_le hx (Nat.pow_le_pow_right (by norm_num) hk2)
  rw [lowRGBA8_high x y i hx28 (by omega)]
  exact testBit_of_lt_pow x k (i - 4) hx (by omega)

theorem lowRGBA8_inj (x y x' y' : Nat) (hx : x < 2 ^ 28) (hx' : x' < 2 ^ 28)
    (hy : y >>> 4 = y' >>> 4) (h : lowRGBA8 x y = lowRGBA8 x' y') : x = x' ∧ y = y' := by
  have hb := lowRGBA8_bits x y
  have hb' := lowRGBA8_bits x' y'
  rw [h] at hb
  obtain ⟨b0, b1, b2, b3, b4, b5, b6, b7, b8⟩ := hb
  obtain ⟨c0, c1, c2, c3, c4, c5, c6, c7, c8⟩ := hb'
  have yhi : ∀ j, 4 ≤ j → y.testBit j = y'.testBit j := by
    intro j hj
    have := congrArg (fun v => Nat.testBit v (j - 4)) hy
    simp only [Nat.testBit_shiftRight] at this
    rwa [show 4 + (j - 4) = j by omega] at this
  have y4 := yhi 4 (le_refl _)
  have y5 := yhi 5 (by norm_num)
  have x0 : x.testBit 0 = x'.testBit 0 := by rw [← b0, c0]
  have x1 : x.testBit 1 = x'.testBit 1 := by rw [← b1, c1]
  have x2 : x.testBit 2 = x'.testBit 2 := by rw [← b3, c3]
  have x3 : x.testBit 3 = x'.testBit 3 := by
    rw [c7, y5] at b7
    revert b7
    cases x.testBit 3 <;> cases x'.testBit 3 <;> cases y'.testBit 5 <;> simp
  have x4 : x.testBit 4 = x'.testBit 4 := by
    rw [c8, y4] at b8
    revert b8
    cases x.testBit 4 <;> cases x'.testBit 4 <;> cases y'.testBit 4 <;> simp
  have y0 : y.testBit 0 = y'.testBit 0 := by rw [← b2, c2]
  have y1 : y.testBit 1 = y'.testBit 1 := by rw [← b4, c4]
  have y2 : y.testBit 2 = y'.testBit 2 := by rw [← b5, c5]
  have y3 : y.testBit 3 = y'.testBit 3 := by
    rw [c6, x3] at b6
    revert b6
    cases y.testBit 3 <;> cases x'.testBit 3 <;> cases y'.testBit 3 <;> simp
  constructor
  · apply Nat.eq_of_testBit_eq
    intro j
    rcases Nat.lt_or_ge j 5 with hj | hj
    · interval_cases j <;> assumption
    · have e1 := lowRGBA8_high x y (j + 4) hx (by omega)
      have e2 := lowRGBA8_high x' y' (j + 4) hx' (by omega)
      rw [h] at e1
      simp only [Nat.add_sub_cancel] at e1 e2
      rw [← e1, e2]
  · apply Nat.eq_of_testBit_eq
    intro j
    rcases Nat.lt_or_ge j 4 with hj | hj
    · interval_cases j <;> assumption
    · exact yhi j hj

/-! ## `decodeRGBA8` -/

theorem posRGBA8_split (x y w : Nat) (hx : x < 2 ^ 28) :
    posRGBA8 x y w = (((y &&& 0xFFFFFFF0) * w) % 2 ^ 32) ^^^ lowRGBA8 x y := by
  have hs : ((x &&& 0xFFFFFFF8) <<< 4) % 2 ^ 32 = (x &&& 0xFFFFFFF8) <<< 4 := by
    apply Nat.mod_eq_of_lt
    rw [Nat.shiftLeft_eq]
    have : x &&& 0xFFFFFFF8 ≤ x := Nat.and_le_left
    omega
  unfold posRGBA8 lowRGBA8
  rw [hs]
  simp only [Nat.xor_assoc]

theorem posRGBA8_pow (x y k h : Nat) (hk : 5 ≤ k) (hk2 : k ≤ 28) (hx : x < 2 ^ k) (hy : y < h)
    (hwh : 2 ^ k * h ≤ 2 ^ 32) :
    posRGBA8 x y (2 ^ k) = 2 ^ (k + 4) * (y >>> 4) + lowRGBA8 x y ∧
      lowRGBA8 x y < 2 ^ (k + 4) := by
  have hx28 : x < 2 ^ 28 := lt_of_lt_of_le hx (Nat.pow_le_pow_right (by norm_num) hk2)
  have hlow := lowRGBA8_lt x y k hk hk2 hx
  have hkpos : 0 < 2 ^ k := Nat.two_pow_pos k
  have hy32 : y < 2 ^ 32 := by
    have : h ≤ 2 ^ k * h := Nat.le_mul_of_pos_left h hkpos
    omega
  have hand := and_F0_eq y hy32
  have hle : y &&& 0xFFFFFFF0 ≤ y := Nat.and_le_left
  have hmul : (y &&& 0xFFFFFFF0) * 2 ^ k < 2 ^ 32 := by
    have h1 : (y &&& 0xFFFFFFF0) * 2 ^ k ≤ y * 2 ^ k := Nat.mul_le_mul_right _ hle
    have h2 : y * 2 ^ k < h * 2 ^ k := Nat.mul_lt_mul_of_pos_right hy hkpos
    have h3 : h * 2 ^ k = 2 ^ k * h := Nat.mul_comm _ _
    omega
  refine ⟨?_, hlow⟩
  rw [posRGBA8_split x y (2 ^ k) hx28, Nat.mod_eq_of_lt hmul, hand]
  have e : 2 ^ 4 * (y >>> 4) * 2 ^ k = 2 ^ (k + 4) * (y >>> 4) := by
    rw [Nat.pow_add]; ring
  rw [e, xor_eq_add_of_lt _ _ _ hlow]

theorem posRGBA8_small (x y w : Nat) (hx : x < 2 ^ 28) (hy : y < 16) :
    posRGBA8 x y w = lowRGBA8 x y := by
  have hand := and_F0_eq y (by omega)
  have h0 : y >>> 4 = 0 := by
    rw [Nat.shiftRight_eq_div_pow]; exact Nat.div_eq_of_lt (by simpa using hy)
  rw [posRGBA8_split x y w hx, hand, h0]
  simp

theorem posRGBA8_eq_imp (w h : Nat)
    (hdim : (h ≤ 16 ∧ w ≤ 2 ^ 28) ∨ (∃ k, 5 ≤ k ∧ k ≤ 28 ∧ w = 2 ^ k ∧ w * h ≤ 2 ^ 32))
    (x y x' y' : Nat) (hx : x < w) (hy : y < h) (hx' : x' < w) (hy' : y' < h)
    (heq : posRGBA8 x y w = posRGBA8 x' y' w) : x = x' ∧ y = y' := by
  rcases hdim with ⟨h16, hw⟩ | ⟨k, hk, hk2, rfl, hwh⟩
  · have hx28 : x < 2 ^ 28 := by omega
    have hx28' : x' < 2 ^ 28 := by omega
    rw [posRGBA8_small x y w hx28 (by omega), posRGBA8_small x' y' w hx28' (by omega)] at heq
    have e0 : y >>> 4 = 0 := by
      rw [Nat.shiftRight_eq_div_pow]; exact Nat.div_eq_of_lt (by norm_num; omega)
    have e0' : y' >>> 4 = 0 := by
      rw [Nat.shiftRight_eq_div_pow]; exact Nat.div_eq_of_lt (by norm_num; omega)
    exact lowRGBA8_inj x y x' y' hx28 hx28' (by rw [e0, e0']) heq
  · have hx28 : x < 2 ^ 28 := lt_of_lt_of_le hx (Nat.pow_le_pow_right (by norm_num) hk2)
    have hx28' : x' < 2 ^ 28 := lt_of_lt_of_le hx' (Nat.pow_le_pow_right (by norm_num) hk2)
    obtain ⟨e1, l1⟩ := posRGBA8_pow x y k h hk hk2 hx hy hwh
    obtain ⟨e2, l2⟩ := posRGBA8_pow x' y' k h hk hk2 hx' hy' hwh
    rw [e1, e2] at heq
    have hp : 0 < 2 ^ (k + 4) := Nat.two_pow_pos _
    have hdiv := congrArg (fun v => v / 2 ^ (k + 4)) heq
    have hmod := congrArg (fun v => v % 2 ^ (k + 4)) heq
    simp only [Nat.mul_add_div hp, Nat.div_eq_of_lt l1, Nat.div_eq_of_lt l2, Nat.add_zero] at hdiv
    simp only [Nat.mul_add_mod, Nat.mod_eq_of_lt l1, Nat.mod_eq_of_lt l2] at hmod
    exact lowRGBA8_inj x y x' y' hx28 hx28' hdiv hmod

/-- C4 (as stated, refuted): for width 4 and height 33 the distinct pixels (0, 0) and
(0, 32) of the grid have the same offset `pos`. -/
theorem posRGBA8_collision :
    (0 : Nat) < 4 ∧ (0 : Nat) < 33 ∧ (32 : Nat) < 33 ∧ ((0 : Nat), (0 : Nat)) ≠ (0, 32) ∧
      posRGBA8 0 0 4 = posRGBA8 0 32 4 := by decide

/-- C4 (amended): when the width is a power of two `2^k` with `5 ≤ k ≤ 28` and
`width * height ≤ 2^32` (nothing wraps in `unsigned int`), and also for every width up to
`2^28` when the height is at most 16, the offset function `pos(x, y, width)` of
`decodeRGBA8` is injective on the pixel grid: distinct pixels get distinct offsets. -/
theorem posRGBA8_injective (w h : Nat)
    (hdim : (h ≤ 16 ∧ w ≤ 2 ^ 28) ∨ (∃ k, 5 ≤ k ∧ k ≤ 28 ∧ w = 2 ^ k ∧ w * h ≤ 2 ^ 32))
    (x y x' y' : Nat) (hx : x < w) (hy : y < h) (hx' : x' < w) (hy' : y' < h)
    (hne : (x, y) ≠ (x', y')) : posRGBA8 x y w ≠ posRGBA8 x' y' w := by
  intro heq
  obtain ⟨e1, e2⟩ := posRGBA8_eq_imp w h hdim x y x' y' hx hy hx' hy' heq
  exact hne (by rw [e1, e2])

theorem posRGBA8_injective_witness : posRGBA8 0 0 32 ≠ posRGBA8 0 32 32 :=
  posRGBA8_injective 32 33 (Or.inr ⟨5, by decide, by decide, by decide, by decide⟩) 0 0 0 32
    (by decide) (by decide) (by decide) (by decide) (by decide)

theorem writeAt_length (buf : List Nat) (off : Nat) (bytes o : List Nat)
    (h : writeAt buf off bytes = some o) : o.length = buf.length := by
  unfold writeAt at h
  split at h
  · injection h with h
    rw [← h]
    simp
    omega
  · simp at h

theorem writeAt_ok (buf : List Nat) (off : Nat) (bytes : List Nat)
    (h : off + bytes.length ≤ buf.length) : ∃ o, writeAt buf off bytes = some o ∧ o.length = buf.length := by
  have : writeAt buf off bytes = some (buf.take off ++ bytes ++ buf.drop (off + bytes.length)) := by
    simp [writeAt, h]
  exact ⟨_, this, writeAt_length _ _ _ _ this⟩

theorem readAt_ok (buf : List Nat) (off n : Nat) (h : off + n ≤ buf.length) :
    ∃ b, readAt buf off n = some b ∧ b.length = n := by
  refine ⟨(buf.drop off).take n, by simp [readAt, h], ?_⟩
  simp
  omega

theorem forLoop_inv {σ : Type} (body : Nat → σ → Except Fault σ) (P : σ → Prop) (n : Nat) :
    ∀ (i : Nat) (s : σ), P s →
      (∀ j t, i ≤ j → j < i + n → P t → ∃ t2, body j t = .ok t2 ∧ P t2) →
      ∃ s2, forLoop body n i s = .ok s2 ∧ P s2 := by
  induction n with
  | zero => intro i s hs _; exact ⟨s, rfl, hs⟩
  | succ n ih =>
    intro i s hs hbody
    obtain ⟨t2, h1, h2⟩ := hbody i s (le_refl _) (by omega) hs
    obtain ⟨s2, h3, h4⟩ := ih (i + 1) t2 h2 (fun j t hj hj2 ht => hbody j t (by omega) (by omega) ht)
    refine ⟨s2, ?_, h4⟩
    simp [forLoop, h1, h3]

theorem posRGBA8_lt (x y k m : Nat) (hk : 5 ≤ k) (hx : x < 2 ^ k) (hy : y < 16 * m)
    (hwh : 2 ^ k * (16 * m) * 4 < 2 ^ 32) : posRGBA8 x y (2 ^ k) < 2 ^ k * (16 * m) := by
  have hm : 0 < m := by omega
  have hk2 : k ≤ 28 := by
    by_contra hc
    have : 2 ^ 29 ≤ 2 ^ k := Nat.pow_le_pow_right (by norm_num) (by omega)
    have : 2 ^ k * 16 ≤ 2 ^ k * (16 * m) := Nat.mul_le_mul_left _ (by omega)
    omega
  obtain ⟨e, l⟩ := posRGBA8_pow x y k (16 * m) hk hk2 hx hy (by omega)
  rw [e]
  have hy4 : y >>> 4 + 1 ≤ m := by
    rw [Nat.shiftRight_eq_div_pow]
    have : y / 2 ^ 4 < m := Nat.div_lt_of_lt_mul (by norm_num; omega)
    omega
  calc 2 ^ (k + 4) * (y >>> 4) + lowRGBA8 x y
      < 2 ^ (k + 4) * (y >>> 4) + 2 ^ (k + 4) := by omega
    _ = 2 ^ (k + 4) * (y >>> 4 + 1) := by ring
    _ ≤ 2 ^ (k + 4) * m := Nat.mul_le_mul_left _ hy4
    _ = 2 ^ k * (16 * m) := by rw [Nat.pow_add]; ring

/-- C6 (as stated, refuted): on the 4x4 all-zero input of 64 bytes `decodeRGBA8` reads
outside the input (pixel (0, 1) has `pos = 4`, pixel (3, 3) has `pos = 23`). -/
theorem decodeRGBA8_4x4_outside :
    (List.replicate 64 0).length = 4 * 4 * 4 ∧ posRGBA8 3 3 4 * 4 = 92 ∧
      decodeRGBA8 4 4 (List.replicate 64 0) = .error .readOutside := by decide

/-- C6 (amended): for every width `2^k` with `k ≥ 5`, every height `16 * m`, with
`width * height * 4 < 2^32`, and every input buffer of at least `width * height * 4`
bytes, `decodeRGBA8` succeeds: every 4-byte read at offset `pos * 4` lies inside the input,
and the result has exactly `width * height * 4` bytes. -/
theorem decodeRGBA8_ok (k m : Nat) (data : List Nat) (hk : 5 ≤ k)
    (hsz : 2 ^ k * (16 * m) * 4 < 2 ^ 32) (hdata : 2 ^ k * (16 * m) * 4 ≤ data.length) :
    (∀ x y, x < 2 ^ k → y < 16 * m → posRGBA8 x y (2 ^ k) * 4 + 4 ≤ data.length) ∧
    ∃ out, decodeRGBA8 (2 ^ k) (16 * m) data = .ok out ∧ out.length = 2 ^ k * (16 * m) * 4 := by
  have hpos : ∀ x y, x < 2 ^ k → y < 16 * m → posRGBA8 x y (2 ^ k) * 4 + 4 ≤ data.length := by
    intro x y hx hy
    have := posRGBA8_lt x y k m hk hx hy hsz
    omega
  refine ⟨hpos, ?_⟩
  unfold decodeRGBA8
  apply @forLoop_inv (List Nat) _ (fun o : List Nat => o.length = 2 ^ k * (16 * m) * 4)
  · rw [Nat.mod_eq_of_lt hsz, List.length_replicate]
  · intro y t _ hy ht
    apply @forLoop_inv (List Nat) _ (fun o : List Nat => o.length = 2 ^ k * (16 * m) * 4) _ _ _ ht
    intro x u _ hx hu
    have hx' : x < 2 ^ k := by omega
    have hy' : y < 16 * m := by omega
    have hp := posRGBA8_lt x y k m hk hx' hy' hsz
    have hd : (y * 2 ^ k + x) < 2 ^ k * (16 * m) := by
      calc y * 2 ^ k + x < y * 2 ^ k + 2 ^ k := by omega
        _ = 2 ^ k * (y + 1) := by ring
        _ ≤ 2 ^ k * (16 * m) := Nat.mul_le_mul_left _ (by omega)
    obtain ⟨px, hr, hl⟩ := readAt_ok data ((posRGBA8 x y (2 ^ k) * 4) % 2 ^ 32) 4 (by
      rw [Nat.mod_eq_of_lt (by omega)]; omega)
    obtain ⟨o, hw, hol⟩ := writeAt_ok u (((y * 2 ^ k + x) * 4) % 2 ^ 32) px (by
      rw [Nat.mod_eq_of_lt (by omega), hl, hu]; omega)
    refine ⟨o, ?_, by rw [hol, hu]⟩
    simp only [pixelRGBA8, hr, hw]

theorem decodeRGBA8_ok_witness :
    (∀ x y, x < 2 ^ 5 → y < 16 * 1 →
      posRGBA8 x y (2 ^ 5) * 4 + 4 ≤ (List.replicate 2048 0).length) ∧
    ∃ out, decodeRGBA8 (2 ^ 5) (16 * 1) (List.replicate 2048 0) = .ok out ∧
      out.length = 2 ^ 5 * (16 * 1) * 4 :=
  decodeRGBA8_ok 5 1 (List.replicate 2048 0) (by decide) (by decide)
    (by simp only [List.length_replicate]; decide)

/-! ## `decodeDXT5` -/

theorem tb_1 (i : Nat) : Nat.testBit 1 i = decide (i = 0) := by
  rcases Nat.lt_or_ge i 1 with h | h
  · interval_cases i
    rfl
  · rw [testBit_of_lt_pow 1 1 i (by norm_num) h]; symm; simp; omega

theorem tb_F (i : Nat) : Nat.testBit 0xF i = decide (i < 4) := by
  rcases Nat.lt_or_ge i 4 with h | h
  · interval_cases i <;> rfl
  · rw [testBit_of_lt_pow 0xF 4 i (by norm_num) h]; symm; simp; omega

theorem tb_18 (i : Nat) : Nat.testBit 0x18 i = decide (3 ≤ i ∧ i < 5) := by
  rcases Nat.lt_or_ge i 5 with h | h
  · interval_cases i <;> rfl
  · rw [testBit_of_lt_pow 0x18 5 i (by norm_num) h]; symm; simp; omega

theorem tb_6 (i : Nat) : Nat.testBit 6 i = decide (1 ≤ i ∧ i < 3) := by
  rcases Nat.lt_or_ge i 3 with h | h
  · interval_cases i <;> rfl
  · rw [testBit_of_lt_pow 6 3 i (by norm_num) h]; symm; simp; omega

theorem tb_20 (i : Nat) : Nat.testBit 0x20 i = decide (i = 5) := by
  rcases Nat.lt_or_ge i 6 with h | h
  · interval_cases i <;> rfl
  · rw [testBit_of_lt_pow 0x20 6 i (by norm_num) h]; symm; simp; omega

theorem tb_E0 (i : Nat) : Nat.testBit 0xFFFFFFE0 i = decide (5 ≤ i ∧ i < 32) := by
  rcases Nat.lt_or_ge i 32 with h | h
  · interval_cases i <;> rfl
  · rw [testBit_of_lt_pow 0xFFFFFFE0 32 i (by norm_num) h]; symm; simp; omega

theorem lowDXT5_bits (x y : Nat) :
    (lowDXT5 x y).testBit 0 = y.testBit 0 ∧
    (lowDXT5 x y).testBit 1 = x.testBit 0 ∧
    (lowDXT5 x y).testBit 2 = x.testBit 1 ∧
    (lowDXT5 x y).testBit 3 = x.testBit 2 ∧
    (lowDXT5 x y).testBit 4 = (x.testBit 3 ^^ y.testBit 3) ∧
    (lowDXT5 x y).testBit 5 = (x.testBit 3 ^^ y.testBit 5) ∧
    (lowDXT5 x y).testBit 6 = (x.testBit 4 ^^ y.testBit 4) ∧
    (lowDXT5 x y).testBit 7 = y.testBit 1 ∧
    (lowDXT5 x y).testBit 8 = y.testBit 2 := by
  refine ⟨?_, ?_, ?_, ?_, ?_, ?_, ?_, ?_, ?_⟩ <;>
    simp [-Nat.testBit_zero, -Nat.and_one_is_mod, lowDXT5, tb_1, tb_F, tb_18, tb_E0, tb_6, tb_8, tb_10, tb_20]

theorem lowDXT5_high (x y i : Nat) (hx : x < 2 ^ 27) (hi : 9 ≤ i) :
    (lowDXT5 x y).testBit i = x.testBit (i - 4) := by
  have a1 : ¬ (i = 0) := by omega
  have a2 : ¬ (i - 1 < 4) := by omega
  have a3 : ¬ (i - 2 < 5) := by omega
  have a4 : ¬ (i - 6 < 3) := by omega
  have a5 : ¬ (i - 1 = 3) := by omega
  have a6 : ¬ (i - 2 = 4) := by omega
  have a7 : ¬ (i = 5) := by omega
  have a8 : 4 ≤ i := by omega
  have a9 : 5 ≤ i - 4 := by omega
  by_cases h32 : i - 4 < 32
  · simp [-Nat.testBit_zero, -Nat.and_one_is_mod, lowDXT5, tb_1, tb_F, tb_18, tb_E0, tb_6, tb_8, tb_10, tb_20,
      a1, a2, a3, a4, a5, a6, a7, a8, a9, h32]
  · have := testBit_of_lt_pow x 27 (i - 4) hx (by omega)
    simp [-Nat.testBit_zero, -Nat.and_one_is_mod, lowDXT5, tb_1, tb_F, tb_18, tb_E0, tb_6, tb_8, tb_10, tb_20,
      a1, a2, a3, a4, a5, a6, a7, a8, a9, h32, this]

theorem lowDXT5_lt (x y k : Nat) (hk : 5 ≤ k) (hk2 : k ≤ 27) (hx : x < 2 ^ k) :
    lowDXT5 x y < 2 ^ (k + 4) := by
  apply Nat.lt_pow_two_of_testBit
  intro i hi
  have hx27 : x < 2 ^ 27 := lt_of_lt_of_le hx (Nat.pow_le_pow_right (by norm_num) hk2)
  rw [lowDXT5_high x y i hx27 (by omega)]
  exact testBit_of_lt_pow x k (i - 4) hx (by omega)

theorem lowDXT5_inj (x y x' y' : Nat) (hx : x < 2 ^ 27) (hx' : x' < 2 ^ 27)
    (hy : y >>> 4 = y' >>> 4) (h : lowDXT5 x y = lowDXT5 x' y') : x = x' ∧ y = y' := by
  have hb := lowDXT5_bits x y
  have hb' := lowDXT5_bits x' y'
  rw [h] at hb
  obtain ⟨b0, b1, b2, b3, b4, b5, b6, b7, b8⟩ := hb
  obtain ⟨c0, c1, c2, c3, c4, c5, c6, c7, c8⟩ := hb'
  have yhi : ∀ j, 4 ≤ j → y.testBit j = y'.testBit j := by
    intro j hj
    have := congrArg (fun v => Nat.testBit v (j - 4)) hy
    simp only [Nat.testBit_shiftRight] at this
    rwa [show 4 + (j - 4) = j by omega] at this
  have y4 := yhi 4 (le_refl _)
  have y5 := yhi 5 (by norm_num)
  have x0 : x.testBit 0 = x'.testBit 0 := by rw [← b1, c1]
  have x1 : x.testBit 1 = x'.testBit 1 := by rw [← b2, c2]
  have x2 : x.testBit 2 = x'.testBit 2 := by rw [← b3, c3]
  have x3 : x.testBit 3 = x'.testBit 3 := by
    rw [c5, y5] at b5
    revert b5
    cases x.testBit 3 <;> cases x'.testBit 3 <;> cases y'.testBit 5 <;> simp
  have x4 : x.testBit 4 = x'.testBit 4 := by
    rw [c6, y4] at b6
    revert b6
    cases x.testBit 4 <;> cases x'.testBit 4 <;> cases y'.testBit 4 <;> simp
  have y0 : y.testBit 0 = y'.testBit 0 := by rw [← b0, c0]
  have y1 : y.testBit 1 = y'.testBit 1 := by rw [← b7, c7]
  have y2 : y.testBit 2 = y'.testBit 2 := by rw [← b8, c8]
  have y3 : y.testBit 3 = y'.testBit 3 := by
    rw [c4, x3] at b4
    revert b4
    cases y.testBit 3 <;> cases x'.testBit 3 <;> cases y'.testBit 3 <;> simp
  constructor
  · apply Nat.eq_of_testBit_eq
    intro j
    rcases Nat.lt_or_ge j 5 with hj | hj
    · interval_cases j <;> assumption
    · have e1 := lowDXT5_high x y (j + 4) hx (by omega)
      have e2 := lowDXT5_high x' y' (j + 4) hx' (by omega)
      rw [h] at e1
      simp only [Nat.add_sub_cancel] at e1 e2
      rw [← e1, e2]
  · apply Nat.eq_of_testBit_eq
    intro j
    rcases Nat.lt_or_ge j 4 with hj | hj
    · interval_cases j <;> assumption
    · exact yhi j hj

theorem posDXT5_split (x y bw : Nat) :
    posDXT5 x y bw = (((y >>> 4) * bw * 16) % 2 ^ 16) ^^^ lowDXT5 x y := by
  have e : (0xFFFF : Nat) = 2 ^ 16 - 1 := by norm_num
  unfold posDXT5 lowDXT5
  rw [e, Nat.and_pow_two_sub_one_eq_mod]
  simp only [Nat.xor_assoc]

theorem posDXT5_pow (x y k bh : Nat) (hk : 5 ≤ k) (hx : x < 2 ^ k) (hy : y < bh)
    (hsz : 2 ^ k * bh ≤ 2 ^ 16) :
    posDXT5 x y (2 ^ k) = 2 ^ (k + 4) * (y >>> 4) + lowDXT5 x y ∧
      lowDXT5 x y < 2 ^ (k + 4) := by
  have hkpos : 0 < 2 ^ k := Nat.two_pow_pos k
  have hk2 : k ≤ 27 := by
    by_contra hc
    have : 2 ^ 28 ≤ 2 ^ k := Nat.pow_le_pow_right (by norm_num) (by omega)
    have : 2 ^ k * 1 ≤ 2 ^ k * bh := Nat.mul_le_mul_left _ (by omega)
    omega
  have hlow := lowDXT5_lt x y k hk hk2 hx
  have hmul : (y >>> 4) * 2 ^ k * 16 < 2 ^ 16 := by
    have h0 : y >>> 4 * 16 ≤ y := by
      rw [Nat.shiftRight_eq_div_pow]; exact Nat.div_mul_le_self y 16
    have h1 : (y >>> 4 * 16) * 2 ^ k ≤ y * 2 ^ k := Nat.mul_le_mul_right _ h0
    have h2 : y * 2 ^ k < bh * 2 ^ k := Nat.mul_lt_mul_of_pos_right hy hkpos
    have h3 : bh * 2 ^ k = 2 ^ k * bh := Nat.mul_comm _ _
    have h4 : (y >>> 4) * 2 ^ k * 16 = (y >>> 4 * 16) * 2 ^ k := by ring
    omega
  refine ⟨?_, hlow⟩
  rw [posDXT5_split, Nat.mod_eq_of_lt hmul]
  have e : (y >>> 4) * 2 ^ k * 16 = 2 ^ (k + 4) * (y >>> 4) := by
    rw [Nat.pow_add]; ring
  rw [e, xor_eq_add_of_lt _ _ _ hlow]

theorem posDXT5_small (x y bw : Nat) (hy : y < 16) : posDXT5 x y bw = lowDXT5 x y := by
  have h0 : y >>> 4 = 0 := by
    rw [Nat.shiftRight_eq_div_pow]; exact Nat.div_eq_of_lt (by simpa using hy)
  rw [posDXT5_split, h0]
  simp

theorem posDXT5_eq_imp (bw bh : Nat)
    (hdim : (bh ≤ 16 ∧ bw ≤ 2 ^ 27) ∨ (∃ k, 5 ≤ k ∧ bw = 2 ^ k ∧ bw * bh ≤ 2 ^ 16))
    (x y x' y' : Nat) (hx : x < bw) (hy : y < bh) (hx' : x' < bw) (hy' : y' < bh)
    (heq : posDXT5 x y bw = posDXT5 x' y' bw) : x = x' ∧ y = y' := by
  rcases hdim with ⟨h16, hw⟩ | ⟨k, hk, rfl, hsz⟩
  · rw [posDXT5_small x y bw (by omega), posDXT5_small x' y' bw (by omega)] at heq
    have e0 : y >>> 4 = 0 := by
      rw [Nat.shiftRight_eq_div_pow]; exact Nat.div_eq_of_lt (by norm_num; omega)
    have e0' : y' >>> 4 = 0 := by
      rw [Nat.shiftRight_eq_div_pow]; exact Nat.div_eq_of_lt (by norm_num; omega)
    exact lowDXT5_inj x y x' y' (by omega) (by omega) (by rw [e0, e0']) heq
  · have hk2 : k ≤ 27 := by
      by_contra hc
      have : 2 ^ 28 ≤ 2 ^ k := Nat.pow_le_pow_right (by norm_num) (by omega)
      have : 2 ^ k * 1 ≤ 2 ^ k * bh := Nat.mul_le_mul_left _ (by omega)
      omega
    have hx27 : x < 2 ^ 27 := lt_of_lt_of_le hx (Nat.pow_le_pow_right (by norm_num) hk2)
    have hx27' : x' < 2 ^ 27 := lt_of_lt_of_le hx' (Nat.pow_le_pow_right (by norm_num) hk2)
    obtain ⟨e1, l1⟩ := posDXT5_pow x y k bh hk hx hy hsz
    obtain ⟨e2, l2⟩ := posDXT5_pow x' y' k bh hk hx' hy' hsz
    rw [e1, e2] at heq
    have hp : 0 < 2 ^ (k + 4) := Nat.two_pow_pos _
    have hdiv := congrArg (fun v => v / 2 ^ (k + 4)) heq
    have hmod := congrArg (fun v => v % 2 ^ (k + 4)) heq
    simp only [Nat.mul_add_div hp, Nat.div_eq_of_lt l1, Nat.div_eq_of_lt l2, Nat.add_zero] at hdiv
    simp only [Nat.mul_add_mod, Nat.mod_eq_of_lt l1, Nat.mod_eq_of_lt l2] at hmod
    exact lowDXT5_inj x y x' y' hx27 hx27' hdiv hmod

/-- C5 (as stated, refuted): in the block grid of width 4 and height 17 the distinct
blocks (0, 0) and (0, 16) have the same physical index `pos`. -/
theorem posDXT5_collision :
    (0 : Nat) < 4 ∧ (0 : Nat) < 17 ∧ (16 : Nat) < 17 ∧ ((0 : Nat), (0 : Nat)) ≠ (0, 16) ∧
      posDXT5 0 0 4 = posDXT5 0 16 4 := by decide

/-- C5 (amended): when the grid width is a power of two `bw = 2^k` with `k ≥ 5` and
`bw * bh ≤ 65536` (the mask `& 0xFFFF` removes nothing), and also for every `bw ≤ 2^27`
when `bh ≤ 16`, the block index function `pos(bx, by, bw)` of `decodeDXT5` is injective on
the block grid: distinct blocks get distinct physical indices. -/
theorem posDXT5_injective (bw bh : Nat)
    (hdim : (bh ≤ 16 ∧ bw ≤ 2 ^ 27) ∨ (∃ k, 5 ≤ k ∧ bw = 2 ^ k ∧ bw * bh ≤ 2 ^ 16))
    (x y x' y' : Nat) (hx : x < bw) (hy : y < bh) (hx' : x' < bw) (hy' : y' < bh)
    (hne : (x, y) ≠ (x', y')) : posDXT5 x y bw ≠ posDXT5 x' y' bw := by
  intro heq
  obtain ⟨e1, e2⟩ := posDXT5_eq_imp bw bh hdim x y x' y' hx hy hx' hy' heq
  exact hne (by rw [e1, e2])

theorem posDXT5_injective_witness : posDXT5 0 0 32 ≠ posDXT5 0 16 32 :=
  posDXT5_injective 32 17 (Or.inr ⟨5, by decide, by decide, by decide⟩) 0 0 0 16
    (by decide) (by decide) (by decide) (by decide) (by decide)

theorem posDXT5_lt (x y k m : Nat) (hk : 5 ≤ k) (hx : x < 2 ^ k) (hy : y < 16 * m)
    (hsz : 2 ^ k * (16 * m) ≤ 2 ^ 16) : posDXT5 x y (2 ^ k) < 2 ^ k * (16 * m) := by
  obtain ⟨e, l⟩ := posDXT5_pow x y k (16 * m) hk hx hy hsz
  rw [e]
  have hy4 : y >>> 4 + 1 ≤ m := by
    rw [Nat.shiftRight_eq_div_pow]
    have : y / 2 ^ 4 < m := Nat.div_lt_of_lt_mul (by norm_num; omega)
    omega
  calc 2 ^ (k + 4) * (y >>> 4) + lowDXT5 x y
      < 2 ^ (k + 4) * (y >>> 4) + 2 ^ (k + 4) := by omega
    _ = 2 ^ (k + 4) * (y >>> 4 + 1) := by ring
    _ ≤ 2 ^ (k + 4) * m := Nat.mul_le_mul_left _ hy4
    _ = 2 ^ k * (16 * m) := by rw [Nat.pow_add]; ring

theorem DXT5ToRGBA_ok (w : Nat) (data : List Nat) (i j : Nat)
    (h : (((w + 3) / 4 * (j / 4) + (i / 4)) * 16) % 2 ^ 32 + 16 ≤ data.length) :
    ∃ px, DXT5ToRGBA w data i j = .ok px ∧ px.length = 4 := by
  obtain ⟨blk, hr, _⟩ := readAt_ok data _ 16 h
  unfold DXT5ToRGBA
  simp only [hr]
  exact ⟨_, rfl, rfl⟩

/-- C7 (as stated, refuted): width 8 and height 4 are positive multiples of 4 and the
buffer has `(8/4) * (4/4) * 16 = 32` bytes, yet block (1, 0) has the physical index 2 and
`decodeDXT5` reads outside the input. -/
theorem decodeDXT5_8x4_outside :
    (List.replicate 32 0).length = (8 / 4) * (4 / 4) * 16 ∧ posDXT5 1 0 (8 / 4) = 2 ∧
      decodeDXT5 8 4 (List.replicate 32 0) = .error .readOutside := by decide

/-- C7 (amended): for every width `4 * 2^k` with `k ≥ 5` and every height `64 * m` (a block
grid of `2^k` by `16 * m` blocks) with `(width/4) * (height/4) ≤ 65536`, and every block
buffer of at least `(width/4) * (height/4) * 16` bytes, the block pass of `decodeDXT5`
completes: every 16-byte block read at the de-swizzled index lies inside the input, every
block written to the work buffer lies inside its `width * height` bytes; and for every
pixel, the block `DXT5ToRGBA` reads lies inside the work buffer and the four bytes at the
pixel's offset `dest` lie inside the `width * height * 4` bytes allocated for the
result. -/
theorem deswizzleDXT5_ok (k m : Nat) (data : List Nat) (hk : 5 ≤ k)
    (hsz : 2 ^ k * (16 * m) ≤ 2 ^ 16) (hdata : 2 ^ k * (16 * m) * 16 ≤ data.length) :
    (∀ x y, x < 2 ^ k → y < 16 * m → posDXT5 x y (2 ^ k) * 16 + 16 ≤ data.length) ∧
    (∀ x y, x < 2 ^ k → y < 16 * m → (y * 2 ^ k + x) * 16 + 16 ≤ (4 * 2 ^ k) * (64 * m)) ∧
    ∃ work, deswizzleDXT5 (4 * 2 ^ k) (64 * m) data = .ok work ∧
      work.length = (4 * 2 ^ k) * (64 * m) ∧
      ∀ x y, x < 4 * 2 ^ k → y < 64 * m →
        (∃ argb, DXT5ToRGBA (4 * 2 ^ k) work x y = .ok argb ∧ argb.length = 4) ∧
        destDXT5 (4 * 2 ^ k) x y + 4 ≤ (4 * 2 ^ k) * (64 * m) * 4 := by
  have hbw : 4 * 2 ^ k / 4 = 2 ^ k := Nat.mul_div_cancel_left _ (by norm_num)
  have hbw3 : (4 * 2 ^ k + 3) / 4 = 2 ^ k := by omega
  have hbh : 64 * m / 4 = 16 * m := by omega
  have hwh : (4 * 2 ^ k) * (64 * m) = 2 ^ k * (16 * m) * 16 := by ring
  have hpos : ∀ x y, x < 2 ^ k → y < 16 * m → posDXT5 x y (2 ^ k) * 16 + 16 ≤ data.length := by
    intro x y hx hy
    have := posDXT5_lt x y k m hk hx hy hsz
    omega
  have hdest : ∀ x y, x < 2 ^ k → y < 16 * m →
      (y * 2 ^ k + x) * 16 + 16 ≤ (4 * 2 ^ k) * (64 * m) := by
    intro x y hx hy
    have hd : (y * 2 ^ k + x) < 2 ^ k * (16 * m) := by
      calc y * 2 ^ k + x < y * 2 ^ k + 2 ^ k := by omega
        _ = 2 ^ k * (y + 1) := by ring
        _ ≤ 2 ^ k * (16 * m) := Nat.mul_le_mul_left _ (by omega)
    omega
  refine ⟨hpos, hdest, ?_⟩
  unfold deswizzleDXT5
  simp only [hbw, hbh]
  obtain ⟨work, hwork, hwl⟩ := @forLoop_inv (List Nat)
    (fun y wk => forLoop (fun x c => blockCopy (2 ^ k) data y x c) (2 ^ k) 0 wk)
    (fun o : List Nat => o.length = (4 * 2 ^ k) * (64 * m)) (16 * m) 0
    (List.replicate (4 * 2 ^ k * (64 * m)) 0) (List.length_replicate _ _) (by
      intro y t _ hy ht
      apply @forLoop_inv (List Nat) _ (fun o : List Nat => o.length = (4 * 2 ^ k) * (64 * m))
        _ _ _ ht
      intro x u _ hx hu
      have hx' : x < 2 ^ k := by omega
      have hy' : y < 16 * m := by omega
      have hp := posDXT5_lt x y k m hk hx' hy' hsz
      have hg : ¬ (2 ^ 31 ≤ posDXT5 x y (2 ^ k) * 16) := by omega
      obtain ⟨blk, hr, hl⟩ := readAt_ok data (posDXT5 x y (2 ^ k) * 16) 16 (hpos x y hx' hy')
      obtain ⟨o, hw, hol⟩ := writeAt_ok u ((y * 2 ^ k + x) * 16) blk (by
        rw [hl, hu]; exact hdest x y hx' hy')
      refine ⟨o, ?_, by rw [hol, hu]⟩
      simp only [blockCopy, hg, if_false, hr, hw])
  refine ⟨work, hwork, hwl, ?_⟩
  intro x y hx hy
  have hb : 2 ^ k * (y / 4) + x / 4 < 2 ^ k * (16 * m) := by
    have h1 : x / 4 < 2 ^ k := by omega
    have h2 : y / 4 + 1 ≤ 16 * m := by omega
    calc 2 ^ k * (y / 4) + x / 4 < 2 ^ k * (y / 4) + 2 ^ k := by omega
      _ = 2 ^ k * (y / 4 + 1) := by ring
      _ ≤ 2 ^ k * (16 * m) := Nat.mul_le_mul_left _ h2
  have hd : (y * (4 * 2 ^ k) + x) < (4 * 2 ^ k) * (64 * m) := by
    calc y * (4 * 2 ^ k) + x < y * (4 * 2 ^ k) + 4 * 2 ^ k := by omega
      _ = (4 * 2 ^ k) * (y + 1) := by ring
      _ ≤ (4 * 2 ^ k) * (64 * m) := Nat.mul_le_mul_left _ (by omega)
  refine ⟨DXT5ToRGBA_ok (4 * 2 ^ k) work x y (by
    rw [hbw3, Nat.mod_eq_of_lt (by omega), hwl]; omega), ?_⟩
  unfold destDXT5
  rw [Nat.mod_eq_of_lt (by omega)]
  omega

theorem deswizzleDXT5_ok_witness :
    (∀ x y, x < 2 ^ 5 → y < 16 * 1 →
      posDXT5 x y (2 ^ 5) * 16 + 16 ≤ (List.replicate 8192 0).length) ∧
    (∀ x y, x < 2 ^ 5 → y < 16 * 1 → (y * 2 ^ 5 + x) * 16 + 16 ≤ (4 * 2 ^ 5) * (64 * 1)) ∧
    ∃ work, deswizzleDXT5 (4 * 2 ^ 5) (64 * 1) (List.replicate 8192 0) = .ok work ∧
      work.length = (4 * 2 ^ 5) * (64 * 1) ∧
      ∀ x y, x < 4 * 2 ^ 5 → y < 64 * 1 →
        (∃ argb, DXT5ToRGBA (4 * 2 ^ 5) work x y = .ok argb ∧ argb.length = 4) ∧
        destDXT5 (4 * 2 ^ 5) x y + 4 ≤ (4 * 2 ^ 5) * (64 * 1) * 4 :=
  deswizzleDXT5_ok 5 1 (List.replicate 8192 0) (by decide) (by decide)
    (by simp only [List.length_replicate]; decide)

theorem forLoop_congr {σ : Type} (body body2 : Nat → σ → Except Fault σ) (n : Nat) :
    ∀ (i : Nat) (s : σ), (∀ j t, i ≤ j → j < i + n → body j t = body2 j t) →
      forLoop body n i s = forLoop body2 n i s := by
  induction n with
  | zero => intro i s _; rfl
  | succ n ih =>
    intro i s hb
    unfold forLoop
    rw [hb i s (le_refl _) (by omega)]
    cases body2 i s with
    | error e => rfl
    | ok t => exact ih (i + 1) t (fun j u hj hj2 => hb j u (by omega) (by omega))

theorem and_3_eq_mod (x : Nat) : x &&& 3 = x % 4 :=
  Nat.and_pow_two_sub_one_eq_mod x 2

theorem and_7_eq_mod (x : Nat) : x &&& 7 = x % 8 :=
  Nat.and_pow_two_sub_one_eq_mod x 3

theorem shiftLeft_mod_8 (v s : Nat) (hs : 3 ≤ s) : (v <<< s) % 8 = 0 := by
  obtain ⟨t, rfl⟩ : ∃ t, s = 3 + t := ⟨s - 3, by omega⟩
  have e : v <<< (3 + t) = 8 * (v * 2 ^ t) := by
    rw [Nat.shiftLeft_eq, Nat.pow_add]; ring
  rw [e]
  exact Nat.mul_mod_right 8 _

theorem le16_join (c : Nat) : c % 256 ||| (c / 256) <<< 8 = c := by
  have h := Nat.mul_add_lt_is_or (show c % 256 < 2 ^ 8 by omega) (c / 256)
  rw [Nat.or_comm, Nat.shiftLeft_eq, Nat.mul_comm, ← h]
  omega

theorem argb_value (r g b a : Nat) (hr : r < 256) (hg : g < 256) (hb : b < 256) :
    (b <<< 16 ||| g <<< 8 ||| r) ||| a <<< 24 = r + g * 2 ^ 8 + b * 2 ^ 16 + a * 2 ^ 24 := by
  have h1 := Nat.mul_add_lt_is_or (show r < 2 ^ 8 by omega) g
  have h2 := Nat.mul_add_lt_is_or (show 2 ^ 8 * g + r < 2 ^ 16 by omega) b
  have h3 := Nat.mul_add_lt_is_or (show 2 ^ 16 * b + (2 ^ 8 * g + r) < 2 ^ 24 by omega) a
  rw [Nat.or_comm _ (a <<< 24), Nat.or_assoc (b <<< 16)]
  simp only [Nat.shiftLeft_eq, Nat.mul_comm _ (2 ^ 8), Nat.mul_comm _ (2 ^ 16),
    Nat.mul_comm _ (2 ^ 24)]
  rw [← h1, ← h2, ← h3]
  omega

theorem argb_bytes (r g b a : Nat) (hr : r < 256) (hg : g < 256) (hb : b < 256) (ha : a < 256) :
    ((b <<< 16 ||| g <<< 8 ||| r) ||| a <<< 24) % 2 ^ 32 % 256 = r ∧
    ((b <<< 16 ||| g <<< 8 ||| r) ||| a <<< 24) % 2 ^ 32 / 2 ^ 8 % 256 = g ∧
    ((b <<< 16 ||| g <<< 8 ||| r) ||| a <<< 24) % 2 ^ 32 / 2 ^ 16 % 256 = b ∧
    ((b <<< 16 ||| g <<< 8 ||| r) ||| a <<< 24) % 2 ^ 32 / 2 ^ 24 % 256 = a := by
  rw [argb_value r g b a hr hg hb]
  refine ⟨?_, ?_, ?_, ?_⟩ <;> omega

theorem expand5_lt (v : Nat) (hv : v < 32) : v * 0xFF / 0x1F < 256 := by omega

theorem expand6_lt (v : Nat) (hv : v < 64) : v * 0xFF / 0x3F < 256 := by omega

theorem DXTToRGB_code0 (c i j : Nat) (hc : c < 65536) :
    DXTToRGB [c % 256, c / 256, c % 256, c / 256, 0, 0, 0, 0] i j
      = (((c &&& 0x1F) * 0xFF / 0x1F) <<< 16) ||| ((((c >>> 5) &&& 0x3F) * 0xFF / 0x3F) <<< 8)
          ||| ((c >>> 11) * 0xFF / 0x1F) := by
  have hr : c >>> 11 < 32 := by
    rw [Nat.shiftRight_eq_div_pow]; omega
  have hg : (c >>> 5) &&& 0x3F < 64 := Nat.and_lt_two_pow _ (by norm_num : 0x3F < 2 ^ 6)
  have hb : c &&& 0x1F < 32 := Nat.and_lt_two_pow _ (by norm_num : 0x1F < 2 ^ 5)
  simp [DXTToRGB, le16_join, Nat.mod_eq_of_lt (expand5_lt _ hr),
    Nat.mod_eq_of_lt (expand6_lt _ hg), Nat.mod_eq_of_lt (expand5_lt _ hb)]

theorem DXT5ToRGBA_uniform (c i j : Nat) (hc : c < 65536) (hi : i < 4) (hj : j < 4) :
    DXT5ToRGBA 4 [255, 255, 0, 0, 0, 0, 0, 0, c % 256, c / 256, c % 256, c / 256, 0, 0, 0, 0] i j
      = .ok [(c >>> 11) * 255 / 31, ((c >>> 5) &&& 63) * 255 / 63, (c &&& 31) * 255 / 31, 255] := by
  have hr : c >>> 11 < 32 := by
    rw [Nat.shiftRight_eq_div_pow]; omega
  have hg : (c >>> 5) &&& 0x3F < 64 := Nat.and_lt_two_pow _ (by norm_num : 0x3F < 2 ^ 6)
  have hb : c &&& 0x1F < 32 := Nat.and_lt_two_pow _ (by norm_num : 0x1F < 2 ^ 5)
  have hcode : alphaCode
      [255, 255, 0, 0, 0, 0, 0, 0, c % 256, c / 256, c % 256, c / 256, 0, 0, 0, 0] i j = 0 := by
    interval_cases i <;> interval_cases j <;>
      simp [alphaCode, and_3_eq_mod, and_7_eq_mod, shiftLeft_mod_8]
  have hptr : (((4 + 3) / 4 * (j / 4) + (i / 4)) * 16) % 2 ^ 32 = 0 := by
    have : j / 4 = 0 := by omega
    have : i / 4 = 0 := by omega
    simp [*]
  obtain ⟨b0, b1, b2, b3⟩ := argb_bytes ((c >>> 11) * 0xFF / 0x1F)
    (((c >>> 5) &&& 0x3F) * 0xFF / 0x3F) ((c &&& 0x1F) * 0xFF / 0x1F) 255
    (expand5_lt _ hr) (expand6_lt _ hg) (expand5_lt _ hb) (by norm_num)
  have hread : readAt
      [255, 255, 0, 0, 0, 0, 0, 0, c % 256, c / 256, c % 256, c / 256, 0, 0, 0, 0] 0 16
      = some [255, 255, 0, 0, 0, 0, 0, 0, c % 256, c / 256, c % 256, c / 256, 0, 0, 0, 0] := by
    simp [readAt]
  have hdrop : List.drop 8
      [255, 255, 0, 0, 0, 0, 0, 0, c % 256, c / 256, c % 256, c / 256, 0, 0, 0, 0]
      = [c % 256, c / 256, c % 256, c / 256, 0, 0, 0, 0] := rfl
  have ha : alphaValue 255 255 0 = 255 := rfl
  unfold DXT5ToRGBA
  simp only [hptr, hread, hcode, hdrop, DXTToRGB_code0 c _ _ hc, List.getD_cons_zero,
    List.getD_cons_succ, ha]
  rw [b0, b1, b2, b3]

theorem pass1_single (p q : Nat) :
    forLoop (fun y wk => forLoop (fun x k => blockCopy 1
      [255, 255, 0, 0, 0, 0, 0, 0, p, q, p, q, 0, 0, 0, 0] y x k) 1 0 wk) 1 0 (List.replicate 16 0)
      = .ok [255, 255, 0, 0, 0, 0, 0, 0, p, q, p, q, 0, 0, 0, 0] := by
  simp [forLoop, blockCopy, posDXT5, readAt, writeAt]

/-- The pixel loops of `decodeDXT5` stop at their first pixel: when the image has a pixel
at all, the body is entered for pixel (0, 0) and ends in a `Fault`. -/
theorem pixelLoops_first (w h : Nat) (work out : List Nat) (e : Fault) (hw : 0 < w) (hh : 0 < h)
    (h0 : pixelDXT5 w work 0 0 out = .error e) :
    forLoop (fun y o => forLoop (fun x o2 => pixelDXT5 w work y x o2) w 0 o) h 0 out
      = .error e := by
  obtain ⟨w2, rfl⟩ : ∃ w2, w = w2 + 1 := ⟨w - 1, by omega⟩
  obtain ⟨h2, rfl⟩ : ∃ h2, h = h2 + 1 := ⟨h - 1, by omega⟩
  simp only [forLoop, h0]

/-- With at least one pixel, `decodeDXT5` returns no buffer: either an access of the block
pass or of `DXT5ToRGBA` leaves its buffer, or the first pixel is read through the dangling
pointer. -/
theorem decodeDXT5_not_ok (w h : Nat) (data : List Nat) (hw : 0 < w) (hh : 0 < h) :
    ∃ e, decodeDXT5 w h data = .error e := by
  unfold decodeDXT5
  by_cases hg : 2 ^ 31 ≤ w * h * 4
  · exact ⟨_, if_pos hg⟩
  · rw [if_neg hg]
    cases hd : deswizzleDXT5 w h data with
    | error e => exact ⟨e, rfl⟩
    | ok work =>
      have h0 : ∃ e, pixelDXT5 w work 0 0 (List.replicate (w * h * 4) 0) = .error e := by
        unfold pixelDXT5
        cases DXT5ToRGBA w work 0 0 with
        | error e => exact ⟨e, rfl⟩
        | ok px => exact ⟨_, rfl⟩
      obtain ⟨e, he⟩ := h0
      exact ⟨e, pixelLoops_first w h work _ e hw hh he⟩

/-- C8 (as evaluated on the code): for every 16-bit RGB565 value `c` and the single block
with `alpha0 = alpha1 = 255`, all alpha indices 0, `color0 = color1 = c` (little-endian)
and all colour indices 0, `DXT5ToRGBA` computes for each of the 16 pixels the bytes
`(c >> 11)*255/31`, `((c >> 5) & 63)*255/63`, `(c & 31)*255/31`, `255` in its local
`argb`, but `decodeDXT5(4, 4, block)` returns no pixel: its copy of the first pixel reads
through the pointer to that local after `DXT5ToRGBA` has returned. -/
theorem decodeDXT5_uniform_dangling (c : Nat) (hc : c < 65536) :
    (∀ i j, i < 4 → j < 4 →
      DXT5ToRGBA 4
          [255, 255, 0, 0, 0, 0, 0, 0, c % 256, c / 256, c % 256, c / 256, 0, 0, 0, 0] i j
        = .ok [(c >>> 11) * 255 / 31, ((c >>> 5) &&& 63) * 255 / 63, (c &&& 31) * 255 / 31,
            255]) ∧
    deswizzleDXT5 4 4
        [255, 255, 0, 0, 0, 0, 0, 0, c % 256, c / 256, c % 256, c / 256, 0, 0, 0, 0]
      = .ok [255, 255, 0, 0, 0, 0, 0, 0, c % 256, c / 256, c % 256, c / 256, 0, 0, 0, 0] ∧
    decodeDXT5 4 4 [255, 255, 0, 0, 0, 0, 0, 0, c % 256, c / 256, c % 256, c / 256, 0, 0, 0, 0]
      = .error .danglingRead := by
  have hpass1 : deswizzleDXT5 4 4
        [255, 255, 0, 0, 0, 0, 0, 0, c % 256, c / 256, c % 256, c / 256, 0, 0, 0, 0]
      = .ok [255, 255, 0, 0, 0, 0, 0, 0, c % 256, c / 256, c % 256, c / 256, 0, 0, 0, 0] := by
    unfold deswizzleDXT5
    simp only [Nat.reduceMul, Nat.reduceDiv]
    exact pass1_single _ _
  refine ⟨fun i j hi hj => DXT5ToRGBA_uniform c i j hc hi hj, hpass1, ?_⟩
  unfold decodeDXT5
  simp only [Nat.reduceMul, Nat.reducePow, Nat.reduceLeDiff, if_false, hpass1]
  apply pixelLoops_first 4 4 _ _ _ (by norm_num) (by norm_num)
  simp only [pixelDXT5, DXT5ToRGBA_uniform c 0 0 hc (by norm_num) (by norm_num)]

theorem decodeDXT5_uniform_dangling_witness :
    (∀ i j, i < 4 → j < 4 →
      DXT5ToRGBA 4
          [255, 255, 0, 0, 0, 0, 0, 0, 0x1234 % 256, 0x1234 / 256, 0x1234 % 256, 0x1234 / 256,
            0, 0, 0, 0] i j
        = .ok [(0x1234 >>> 11) * 255 / 31, ((0x1234 >>> 5) &&& 63) * 255 / 63,
            (0x1234 &&& 31) * 255 / 31, 255]) ∧
    deswizzleDXT5 4 4
        [255, 255, 0, 0, 0, 0, 0, 0, 0x1234 % 256, 0x1234 / 256, 0x1234 % 256, 0x1234 / 256,
          0, 0, 0, 0]
      = .ok [255, 255, 0, 0, 0, 0, 0, 0, 0x1234 % 256, 0x1234 / 256, 0x1234 % 256, 0x1234 / 256,
          0, 0, 0, 0] ∧
    decodeDXT5 4 4
        [255, 255, 0, 0, 0, 0, 0, 0, 0x1234 % 256, 0x1234 / 256, 0x1234 % 256, 0x1234 / 256,
          0, 0, 0, 0]
      = .error .danglingRead :=
  decodeDXT5_uniform_dangling 0x1234 (by decide)

/-! ## Back-reference tokens and faults of `decompress` -/

theorem copyLoop_spec (n : Nat) :
    ∀ (out : List Nat) (d : Nat), 1 ≤ d → d ≤ out.length →
      ∃ ext, copyLoop n (out.length - d) out = .ok (out ++ ext) ∧ ext.length = n ∧
        ∀ i, i < n → (out ++ ext)[out.length + i]? = (out ++ ext)[out.length + i - d]? := by
  induction n with
  | zero =>
    intro out d _ _
    exact ⟨[], by simp [copyLoop], rfl, fun i hi => absurd hi (Nat.not_lt_zero i)⟩
  | succ n ih =>
    intro out d h1 h2
    have hc : out.length - d < out.length := by omega
    obtain ⟨ext, he, hl, hi⟩ := ih (out ++ [out[out.length - d]]) d h1 (by simp; omega)
    have hlen : (out ++ [out[out.length - d]]).length - d = out.length - d + 1 := by
      simp; omega
    rw [hlen] at he
    refine ⟨out[out.length - d] :: ext, ?_, by simp [hl], ?_⟩
    · unfold copyLoop
      rw [List.getElem?_eq_getElem hc]
      simp only
      rw [he, List.append_assoc, List.singleton_append]
    · intro i hin
      rw [List.append_assoc, List.singleton_append] at hi
      rcases Nat.eq_zero_or_pos i with rfl | hpos
      · rw [Nat.add_zero, List.getElem?_append_right (le_refl _), Nat.sub_self,
          List.getElem?_append_left hc]
        simp
      · have := hi (i - 1) (by omega)
        simp only [List.length_append, List.length_singleton] at this
        rw [show out.length + 1 + (i - 1) = out.length + i by omega] at this
        exact this

theorem backRef_eq (b1 b2 : Nat) (rest out : List Nat) :
    backRef (b1 :: b2 :: rest) out =
      if b1 >>> 4 = 0 then
        match rest with
        | ext :: rest2 =>
          if out.length < backRefDistance b1 b2 then .error .copyBeforeStart
          else
            match copyLoop (backRefLength b1 ext) (out.length - backRefDistance b1 b2) out with
            | .error e => .error e
            | .ok o => .ok (rest2, o)
        | [] => .error .readOutside
      else
        if out.length < backRefDistance b1 b2 then .error .copyBeforeStart
        else
          match copyLoop (backRefLength b1 0) (out.length - backRefDistance b1 b2) out with
          | .error e => .error e
          | .ok o => .ok (rest, o) := by
  unfold backRef backRefLength backRefDistance
  by_cases h : b1 >>> 4 = 0
  · simp only [h, if_true]
  · simp only [h, if_false]

theorem backRefDistance_range (b1 b2 : Nat) (h2 : b2 < 256) :
    1 ≤ backRefDistance b1 b2 ∧ backRefDistance b1 b2 ≤ 4096 := by
  unfold backRefDistance
  have h : (b1 &&& 0xF) <<< 8 ||| b2 < 2 ^ 12 := by
    apply Nat.or_lt_two_pow
    · have : b1 &&& 0xF ≤ 0xF := Nat.and_le_right
      rw [Nat.shiftLeft_eq]; omega
    · omega
  omega

theorem backRefDistance_onto (d : Nat) (h1 : 1 ≤ d) (h2 : d ≤ 4096) :
    ∃ b1 b2, b1 < 256 ∧ b2 < 256 ∧ backRefDistance b1 b2 = d := by
  refine ⟨(d - 1) / 256, (d - 1) % 256, by omega, by omega, ?_⟩
  unfold backRefDistance
  have hb : (d - 1) / 256 < 16 := by omega
  have e : ((d - 1) / 256) &&& 0xF = (d - 1) / 256 :=
    Nat.and_pow_two_sub_one_of_lt_two_pow (n := 4) hb
  have h := Nat.mul_add_lt_is_or (show (d - 1) % 256 < 2 ^ 8 by omega) ((d - 1) / 256)
  rw [e, Nat.shiftLeft_eq, Nat.mul_comm, ← h]
  omega

/-- C11 (as stated, refuted): no back-reference token of the short form has length 2: the
high nibble 0, which would give `0 + 2`, selects the extended form (length 18 for
`ext = 0`), so the short form yields 3..17. -/
theorem backRef_short_never_two :
    backRefLength 0x00 0 = 18 ∧ backRefLength 0x10 0 = 3 ∧
      ¬ ∃ b1 ext, b1 >>> 4 ≠ 0 ∧ backRefLength b1 ext = 2 := by
  refine ⟨by decide, by decide, ?_⟩
  rintro ⟨b1, ext, hn, hl⟩
  unfold backRefLength at hl
  rw [if_neg hn] at hl
  omega

/-- C11 (amended): for a back-reference token with bytes `b1`, `b2` (and `ext` when read)
the distance is `((b1 & 0xF) << 8 | b2) + 1`, and the distances that occur are exactly
1..4096; if the high nibble of `b1` is zero one more byte `ext` is consumed and the length
is `ext + 18`, the lengths of this form being exactly 18..273; otherwise the length is
`(b1 >> 4) + 2`, the lengths of this short form being exactly 3..17.  With at least
`distance` bytes written, the token appends `length` bytes, each the byte `distance`
positions before it. -/
theorem backRef_token (b1 b2 ext : Nat) (h1 : b1 < 256) (h2 : b2 < 256) (he : ext < 256)
    (rest out : List Nat) (hd : backRefDistance b1 b2 ≤ out.length) :
    (1 ≤ backRefDistance b1 b2 ∧ backRefDistance b1 b2 ≤ 4096) ∧
    (b1 >>> 4 = 0 →
      backRefLength b1 ext = ext + 18 ∧ 18 ≤ backRefLength b1 ext ∧
      backRefLength b1 ext ≤ 273 ∧
      ∃ o, backRef (b1 :: b2 :: ext :: rest) out = .ok (rest, out ++ o) ∧
        o.length = backRefLength b1 ext ∧
        ∀ i, i < backRefLength b1 ext →
          (out ++ o)[out.length + i]? = (out ++ o)[out.length + i - backRefDistance b1 b2]?) ∧
    (b1 >>> 4 ≠ 0 →
      backRefLength b1 ext = b1 >>> 4 + 2 ∧ 3 ≤ backRefLength b1 ext ∧
      backRefLength b1 ext ≤ 17 ∧
      ∃ o, backRef (b1 :: b2 :: rest) out = .ok (rest, out ++ o) ∧
        o.length = backRefLength b1 ext ∧
        ∀ i, i < backRefLength b1 ext →
          (out ++ o)[out.length + i]? = (out ++ o)[out.length + i - backRefDistance b1 b2]?) ∧
    (∀ d, 1 ≤ d → d ≤ 4096 → ∃ c1 c2, c1 < 256 ∧ c2 < 256 ∧ backRefDistance c1 c2 = d) ∧
    (∀ L, 18 ≤ L → L ≤ 273 →
      ∃ c1 e, c1 < 256 ∧ e < 256 ∧ c1 >>> 4 = 0 ∧ backRefLength c1 e = L) ∧
    (∀ L, 3 ≤ L → L ≤ 17 → ∃ c1, c1 < 256 ∧ c1 >>> 4 ≠ 0 ∧ backRefLength c1 0 = L) := by
  have hrange := backRefDistance_range b1 b2 h2
  refine ⟨hrange, ?_, ?_, backRefDistance_onto, ?_, ?_⟩
  · intro hn
    have hl : backRefLength b1 ext = ext + 18 := by simp [backRefLength, hn]
    obtain ⟨o, ho, hlen, hcopy⟩ := copyLoop_spec (backRefLength b1 ext) out
      (backRefDistance b1 b2) hrange.1 hd
    refine ⟨hl, by omega, by omega, o, ?_, hlen, hcopy⟩
    rw [backRef_eq, if_pos hn]
    simp only [Nat.not_lt.mpr hd, if_false, ho]
  · intro hn
    have hl : backRefLength b1 ext = b1 >>> 4 + 2 := by simp [backRefLength, hn]
    have hl0 : backRefLength b1 0 = backRefLength b1 ext := by simp [backRefLength, hn]
    have hnib : b1 >>> 4 < 16 := by rw [Nat.shiftRight_eq_div_pow]; omega
    obtain ⟨o, ho, hlen, hcopy⟩ := copyLoop_spec (backRefLength b1 ext) out
      (backRefDistance b1 b2) hrange.1 hd
    refine ⟨hl, by omega, by omega, o, ?_, hlen, hcopy⟩
    rw [backRef_eq, if_neg hn, hl0]
    simp only [Nat.not_lt.mpr hd, if_false, ho]
  · intro L hL1 hL2
    exact ⟨0, L - 18, by norm_num, by omega, by decide, by simp [backRefLength]; omega⟩
  · intro L hL1 hL2
    have e : ((L - 2) * 16) >>> 4 = L - 2 := by
      rw [Nat.shiftRight_eq_div_pow]; omega
    refine ⟨(L - 2) * 16, by omega, by rw [e]; omega, ?_⟩
    unfold backRefLength
    rw [e, if_neg (by omega)]
    omega

theorem backRef_token_witness :
    (1 ≤ backRefDistance 0x20 1 ∧ backRefDistance 0x20 1 ≤ 4096) ∧
    (0x20 >>> 4 = 0 →
      backRefLength 0x20 0 = 0 + 18 ∧ 18 ≤ backRefLength 0x20 0 ∧
      backRefLength 0x20 0 ≤ 273 ∧
      ∃ o, backRef (0x20 :: 1 :: 0 :: [9]) [5, 6] = .ok ([9], [5, 6] ++ o) ∧
        o.length = backRefLength 0x20 0 ∧
        ∀ i, i < backRefLength 0x20 0 →
          ([5, 6] ++ o)[[5, 6].length + i]?
            = ([5, 6] ++ o)[[5, 6].length + i - backRefDistance 0x20 1]?) ∧
    (0x20 >>> 4 ≠ 0 →
      backRefLength 0x20 0 = 0x20 >>> 4 + 2 ∧ 3 ≤ backRefLength 0x20 0 ∧
      backRefLength 0x20 0 ≤ 17 ∧
      ∃ o, backRef (0x20 :: 1 :: [9]) [5, 6] = .ok ([9], [5, 6] ++ o) ∧
        o.length = backRefLength 0x20 0 ∧
        ∀ i, i < backRefLength 0x20 0 →
          ([5, 6] ++ o)[[5, 6].length + i]?
            = ([5, 6] ++ o)[[5, 6].length + i - backRefDistance 0x20 1]?) ∧
    (∀ d, 1 ≤ d → d ≤ 4096 → ∃ c1 c2, c1 < 256 ∧ c2 < 256 ∧ backRefDistance c1 c2 = d) ∧
    (∀ L, 18 ≤ L → L ≤ 273 →
      ∃ c1 e, c1 < 256 ∧ e < 256 ∧ c1 >>> 4 = 0 ∧ backRefLength c1 e = L) ∧
    (∀ L, 3 ≤ L → L ≤ 17 → ∃ c1, c1 < 256 ∧ c1 >>> 4 ≠ 0 ∧ backRefLength c1 0 = L) :=
  backRef_token 0x20 1 0 (by decide) (by decide) (by decide) [9] [5, 6] (by decide)

theorem step_of_tokenExhausted (s : DState) (h : tokenExhausted s = true) :
    step s = .error .readOutside := by
  unfold tokenExhausted at h
  unfold step
  cases hf : fetchControl s with
  | error e =>
    unfold fetchControl at hf
    split at hf
    · split at hf
      · simp at hf
      · simp at hf; simp [hf]
    · simp at hf
  | ok v =>
    obtain ⟨code, bits, inp⟩ := v
    rw [hf] at h
    simp only at h ⊢
    by_cases hc : code &&& 0x80 ≠ 0
    · rw [if_pos hc] at h ⊢
      cases inp with
      | nil => rfl
      | cons b r => simp at h
    · rw [if_neg hc] at h ⊢
      rcases inp with _ | ⟨b1, _ | ⟨b2, rest⟩⟩
      · simp [backRef]
      · simp [backRef]
      · simp only [Bool.and_eq_true, decide_eq_true_eq, List.isEmpty_iff] at h
        obtain ⟨hn, hr⟩ := h
        subst hr
        simp [backRef, hn]

theorem step_of_backRefTooFar (s : DState) (h : backRefTooFar s = true) :
    step s = .error .copyBeforeStart := by
  unfold backRefTooFar at h
  unfold step
  cases hf : fetchControl s with
  | error e => rw [hf] at h; simp at h
  | ok v =>
    obtain ⟨code, bits, inp⟩ := v
    rw [hf] at h
    rcases inp with _ | ⟨b1, _ | ⟨b2, rest⟩⟩
    · simp at h
    · simp at h
    · simp only [Bool.and_eq_true, Bool.or_eq_true, decide_eq_true_eq, Bool.not_eq_true',
        List.isEmpty_eq_false, backRefDistance] at h
      obtain ⟨⟨hc, hform⟩, hd⟩ := h
      simp only [hc, ne_eq, not_true_eq_false, if_false]
      by_cases hn : b1 >>> 4 = 0
      · rcases hform with hne | hrest
        · exact absurd hn hne
        · cases rest with
          | nil => simp at hrest
          | cons ext rest2 => simp [backRef, hn, hd]
      · simp [backRef, hn, hd]

theorem runSteps_length (k : Nat) :
    ∀ s0 s, runSteps k s0 = .ok s → s0.out.length + k ≤ s.out.length := by
  induction k with
  | zero => intro s0 s h; simp [runSteps] at h; rw [h]; omega
  | succ k ih =>
    intro s0 s h
    unfold runSteps at h
    cases hs : step s0 with
    | error e => simp [hs] at h
    | ok s1 =>
      simp only [hs] at h
      have := (step_spec s0).1 s1 hs
      have := ih s1 s h
      omega

theorem decompressLoop_runSteps (outsize k : Nat) :
    ∀ fuel s0 s, runSteps k s0 = .ok s → s.out.length < outsize →
      decompressLoop outsize (k + fuel) s0 = decompressLoop outsize fuel s := by
  induction k with
  | zero => intro fuel s0 s h _; simp [runSteps] at h; rw [h, Nat.zero_add]
  | succ k ih =>
    intro fuel s0 s h hlt
    have hlen := runSteps_length (k + 1) s0 s h
    unfold runSteps at h
    cases hs : step s0 with
    | error e => simp [hs] at h
    | ok s1 =>
      simp only [hs] at h
      rw [show k + 1 + fuel = (k + fuel) + 1 by omega, decompressLoop,
        if_pos (show s0.out.length < outsize by omega)]
      simp only [hs]
      exact ih fuel s1 s h hlt

theorem decompress_of_step_error (data : List Nat) (n k : Nat) (s : DState) (e : Fault)
    (hn : readOutsize data = .ok n) (hk : runSteps k ⟨data.drop 16, [], 0, 0⟩ = .ok s)
    (hs : s.out.length < n) (he : step s = .error e) : decompress data = .error e := by
  have hlen := runSteps_length k _ s hk
  simp only [List.length_nil, Nat.zero_add] at hlen
  unfold decompress
  rw [hn]
  simp only
  obtain ⟨f, hf⟩ : ∃ f, n = k + (f + 1) := ⟨n - k - 1, by omega⟩
  have := decompressLoop_runSteps n k (f + 1) _ s hk hs
  rw [← hf] at this
  rw [this, decompressLoop, if_pos hs]
  simp only [he]

/-- C15 (as stated, refuted): on the stream that declares 2 bytes and ends after the
literal 7, the byte 7 has been stored in the output buffer when the next iteration reads
through the input pointer behind the last byte of the stream (`Fault.readOutside`, an
access outside the buffer): no test precedes the read and nothing reports an error. -/
theorem decompress_truncated_trace :
    readOutsize [0,0,0,0, 0,0,0,2, 0,0,0,0, 0,0,0,0, 0x80, 7] = .ok 2 ∧
    runSteps 1 ⟨[0x80, 7], [], 0, 0⟩ = .ok ⟨[], [7], 7, 0⟩ ∧
    step ⟨[], [7], 7, 0⟩ = .error .readOutside ∧
    decompress [0,0,0,0, 0,0,0,2, 0,0,0,0, 0,0,0,0, 0x80, 7] = .error .readOutside := by
  decide

/-- C15 (amended): `decompress` makes no check and has no error return.  On every stream
whose token data is exhausted before the declared number of bytes has been written the
loop reads behind the end of the input buffer, and on every stream where the next
back-reference has a distance greater than the number of bytes written so far it reads
before the start of the output buffer; both are accesses outside a buffer (`Fault`),
made after the bytes of the earlier tokens have been stored. -/
theorem decompress_fault (data : List Nat) (n k : Nat) (s : DState)
    (hn : readOutsize data = .ok n) (hk : runSteps k ⟨data.drop 16, [], 0, 0⟩ = .ok s)
    (hs : s.out.length < n) :
    (tokenExhausted s = true → decompress data = .error .readOutside) ∧
    (backRefTooFar s = true → decompress data = .error .copyBeforeStart) :=
  ⟨fun h => decompress_of_step_error data n k s _ hn hk hs (step_of_tokenExhausted s h),
    fun h => decompress_of_step_error data n k s _ hn hk hs (step_of_backRefTooFar s h)⟩

theorem decompress_fault_witness :
    (tokenExhausted ⟨[0x10, 5], [7], 7, 0⟩ = true →
      decompress [0,0,0,0, 0,0,0,9, 0,0,0,0, 0,0,0,0, 0x80, 7, 0x10, 5] = .error .readOutside) ∧
    (backRefTooFar ⟨[0x10, 5], [7], 7, 0⟩ = true →
      decompress [0,0,0,0, 0,0,0,9, 0,0,0,0, 0,0,0,0, 0x80, 7, 0x10, 5]
        = .error .copyBeforeStart) :=
  decompress_fault [0,0,0,0, 0,0,0,9, 0,0,0,0, 0,0,0,0, 0x80, 7, 0x10, 5] 9 1
    ⟨[0x10, 5], [7], 7, 0⟩ (by decide) (by decide) (by decide)

/-! ## The output of `compress` -/

theorem compressLoop_resume (x : List Nat) :
    ∀ n, 1 ≤ n → n ≤ 8 →
      compressLoop x n = x.take (8 - n) ++ compressLoop (x.drop (8 - n)) 8 := by
  induction x with
  | nil => intro n _ _; simp [compressLoop]
  | cons b rest ih =>
    intro n h1 h8
    by_cases h : n = 8
    · subst h; simp
    · have hn : (n + 1) % 256 = n + 1 := Nat.mod_eq_of_lt (by omega)
      obtain ⟨m, hm⟩ : ∃ m, 8 - n = m + 1 := ⟨7 - n, by omega⟩
      have hm2 : 8 - (n + 1) = m := by omega
      rw [compressLoop, if_neg h, hn, ih (n + 1) (by omega) (by omega), hm, hm2]
      simp

theorem compressLoop_group (x : List Nat) (hx : x ≠ []) :
    compressLoop x 8 = 0xFF :: (x.take 8 ++ compressLoop (x.drop 8) 8) := by
  cases x with
  | nil => exact absurd rfl hx
  | cons b rest =>
    rw [compressLoop, if_pos rfl, compressLoop_resume rest ((0 + 1) % 256) (by norm_num)
      (by norm_num)]
    simp

theorem chunksOf8_flatten (fuel : Nat) :
    ∀ x : List Nat, x.length ≤ fuel →
      (chunksOf8 fuel x).flatten = x ∧
      ((chunksOf8 fuel x).map (fun c => 0xFF :: c)).flatten = compressLoop x 8 ∧
      ∀ c ∈ chunksOf8 fuel x, 1 ≤ c.length ∧ c.length ≤ 8 := by
  induction fuel with
  | zero =>
    intro x hx
    have : x = [] := List.length_eq_zero.mp (by omega)
    subst this
    simp [chunksOf8, compressLoop]
  | succ f ih =>
    intro x hx
    by_cases h : x = []
    · subst h; simp [chunksOf8, compressLoop]
    · have hpos : 0 < x.length := List.length_pos.mpr h
      obtain ⟨i1, i2, i3⟩ := ih (x.drop 8) (by simp; omega)
      simp only [chunksOf8, if_neg h, List.flatten_cons, List.map_cons, i1, i2,
        List.take_append_drop, List.mem_cons]
      refine ⟨trivial, ?_, ?_⟩
      · rw [compressLoop_group x h]; simp
      · intro c hc
        rcases hc with rfl | hc
        · simp; omega
        · exact i3 c hc

/-- C18: the bytes `compress` writes are the concatenation, over the consecutive chunks of
8 input bytes (the last possibly shorter, none for the empty input), of the control
byte `0xFF` followed by the chunk unchanged; the chunks are not empty, at most 8 bytes
long and their concatenation is the input. -/
theorem compress_literalGroups (x : List Nat) :
    compress x = literalGroups x ∧
    (chunksOf8 x.length x).flatten = x ∧
    (∀ c ∈ chunksOf8 x.length x, 1 ≤ c.length ∧ c.length ≤ 8) ∧
    (x ≠ [] → compress x = 0xFF :: (x.take 8 ++ compress (x.drop 8))) := by
  obtain ⟨h1, h2, h3⟩ := chunksOf8_flatten x.length x (le_refl _)
  refine ⟨?_, h1, h3, ?_⟩
  · unfold compress literalGroups
    exact h2.symm
  · intro hx
    exact compressLoop_group x hx

/-- C16 (as evaluated on the code): for an input of `2^32 - 1` bytes the buffer allocated
has `size + (size+8)/8 = 4294967295` bytes in `unsigned int` arithmetic, and `compress`
writes 4831838207 bytes. -/
theorem compress_overrun :
    compressAlloc 4294967295 = 4294967295 ∧
    (compress (List.replicate 4294967295 0)).length = 4831838207 := by
  refine ⟨by decide, ?_⟩
  have hl := compressLoop_length (List.replicate 4294967295 0) 8 (by norm_num) (by norm_num)
  rw [List.length_replicate] at hl
  unfold compress
  rw [hl]

/-! ## Colour and alpha of a DXT5 pixel -/

theorem rgb_value (r g b : Nat) (hr : r < 256) (hg : g < 256) (hb : b < 256) :
    b <<< 16 ||| g <<< 8 ||| r = r + g * 2 ^ 8 + b * 2 ^ 16 := by
  have := argb_value r g b 0 hr hg hb
  simpa using this

theorem DXTToRGB_lt (p : List Nat) (i j : Nat) : DXTToRGB p i j < 2 ^ 24 := by
  unfold DXTToRGB
  simp only
  split
  · rw [rgb_value _ _ _ (Nat.mod_lt _ (by norm_num)) (Nat.mod_lt _ (by norm_num))
      (Nat.mod_lt _ (by norm_num))]
    omega
  · split
    · rw [rgb_value _ _ _ (Nat.mod_lt _ (by norm_num)) (Nat.mod_lt _ (by norm_num))
        (Nat.mod_lt _ (by norm_num))]
      omega
    · split
      · rw [rgb_value _ _ _ (by omega) (by omega) (by omega)]
        omega
      · rw [rgb_value _ _ _ (by omega) (by omega) (by omega)]
        omega

theorem alphaCode_lt (blk : List Nat) (i j : Nat) : alphaCode blk i j < 8 := by
  unfold alphaCode
  simp only [and_7_eq_mod]
  omega

theorem alphaValue_eq_ramp (alpha0 alpha1 code : Nat) (h0 : alpha0 < 256) (h1 : alpha1 < 256)
    (hc : code < 8) :
    alphaValue alpha0 alpha1 code = alphaRamp alpha0 alpha1 code ∧
      alphaRamp alpha0 alpha1 code < 256 := by
  unfold alphaValue alphaRamp
  by_cases hgt : alpha0 > alpha1
  · interval_cases code <;> simp [hgt] <;> omega
  · interval_cases code <;> simp [hgt] <;> omega

theorem alpha_byte (rgb a : Nat) (hrgb : rgb < 2 ^ 24) (ha : a < 256) :
    (rgb ||| a <<< 24) % 2 ^ 32 / 2 ^ 24 % 256 = a := by
  have h := Nat.mul_add_lt_is_or hrgb a
  rw [Nat.or_comm, Nat.shiftLeft_eq, Nat.mul_comm, ← h]
  omega

/-- C13: the alpha byte computed by `DXT5ToRGBA`, the fourth byte of its result, is the
alpha value of the specification for the block's `alpha0`, `alpha1` and the 3-bit code
of the pixel: `alpha0` for code 0, `alpha1` for code 1, the 7-step ramp for
`alpha0 > alpha1`, else the 5-step ramp for codes 2..5, 0 for code 6 and 255 for code 7;
the value fits a byte, nothing is truncated. -/
theorem DXT5ToRGBA_alpha (w : Nat) (data blk : List Nat) (i j : Nat)
    (hread : readAt data ((((w + 3) / 4 * (j / 4) + (i / 4)) * 16) % 2 ^ 32) 16 = some blk)
    (h0 : blk.getD 0 0 < 256) (h1 : blk.getD 1 0 < 256) :
    (∀ code, code < 8 →
      alphaValue (blk.getD 0 0) (blk.getD 1 0) code
        = alphaRamp (blk.getD 0 0) (blk.getD 1 0) code ∧
      alphaRamp (blk.getD 0 0) (blk.getD 1 0) code < 256) ∧
    alphaCode blk i j < 8 ∧
    ∃ r g b, DXT5ToRGBA w data i j
      = .ok [r, g, b, alphaRamp (blk.getD 0 0) (blk.getD 1 0) (alphaCode blk i j)] := by
  have hc := alphaCode_lt blk i j
  obtain ⟨e, hlt⟩ := alphaValue_eq_ramp _ _ _ h0 h1 hc
  refine ⟨fun code hcode => alphaValue_eq_ramp _ _ _ h0 h1 hcode, hc, ?_⟩
  unfold DXT5ToRGBA
  simp only [hread]
  rw [alpha_byte _ _ (DXTToRGB_lt _ _ _) (by rw [e]; exact hlt), e]
  exact ⟨_, _, _, rfl⟩

theorem DXT5ToRGBA_alpha_witness :
    (∀ code, code < 8 →
      alphaValue ([10, 200, 0, 0x80, 3, 0, 0, 0, 0, 0, 0, 0, 0, 0, 0, 0].getD 0 0)
          ([10, 200, 0, 0x80, 3, 0, 0, 0, 0, 0, 0, 0, 0, 0, 0, 0].getD 1 0) code
        = alphaRamp ([10, 200, 0, 0x80, 3, 0, 0, 0, 0, 0, 0, 0, 0, 0, 0, 0].getD 0 0)
          ([10, 200, 0, 0x80, 3, 0, 0, 0, 0, 0, 0, 0, 0, 0, 0, 0].getD 1 0) code ∧
      alphaRamp ([10, 200, 0, 0x80, 3, 0, 0, 0, 0, 0, 0, 0, 0, 0, 0, 0].getD 0 0)
          ([10, 200, 0, 0x80, 3, 0, 0, 0, 0, 0, 0, 0, 0, 0, 0, 0].getD 1 0) code < 256) ∧
    alphaCode [10, 200, 0, 0x80, 3, 0, 0, 0, 0, 0, 0, 0, 0, 0, 0, 0] 1 1 < 8 ∧
    ∃ r g b, DXT5ToRGBA 4 [10, 200, 0, 0x80, 3, 0, 0, 0, 0, 0, 0, 0, 0, 0, 0, 0] 1 1
      = .ok [r, g, b, alphaRamp ([10, 200, 0, 0x80, 3, 0, 0, 0, 0, 0, 0, 0, 0, 0, 0, 0].getD 0 0)
          ([10, 200, 0, 0x80, 3, 0, 0, 0, 0, 0, 0, 0, 0, 0, 0, 0].getD 1 0)
          (alphaCode [10, 200, 0, 0x80, 3, 0, 0, 0, 0, 0, 0, 0, 0, 0, 0, 0] 1 1)] :=
  DXT5ToRGBA_alpha 4 [10, 200, 0, 0x80, 3, 0, 0, 0, 0, 0, 0, 0, 0, 0, 0, 0]
    [10, 200, 0, 0x80, 3, 0, 0, 0, 0, 0, 0, 0, 0, 0, 0, 0] 1 1 (by decide) (by decide)
    (by decide)

theorem rgb_bytes (r g b : Nat) (hr : r < 256) (hg : g < 256) (hb : b < 256) :
    (b <<< 16 ||| g <<< 8 ||| r) % 256 = r ∧
    (b <<< 16 ||| g <<< 8 ||| r) / 2 ^ 8 % 256 = g ∧
    (b <<< 16 ||| g <<< 8 ||| r) / 2 ^ 16 % 256 = b := by
  rw [rgb_value r g b hr hg hb]
  refine ⟨?_, ?_, ?_⟩ <;> omega

theorem mix_between (a b : Nat) :
    min a b ≤ (a * 2 + b) / 3 ∧ (a * 2 + b) / 3 ≤ max a b ∧
    min a b ≤ (a + b * 2) / 3 ∧ (a + b * 2) / 3 ≤ max a b := by
  rcases Nat.le_total a b with h | h
  · rw [Nat.min_eq_left h, Nat.max_eq_right h]; omega
  · rw [Nat.min_eq_right h, Nat.max_eq_left h]; omega

/-- C12: for every pair of RGB565 values `color0`, `color1` and every colour index, each of
the three 8-bit channels of the value `DXTToRGB` returns (bits 0..7 red, 8..15 green,
16..23 blue) lies between the expanded `color0` channel and the expanded `color1`
channel. -/
theorem DXTToRGB_between (c0 c1 q0 q1 q2 q3 i j : Nat) (h0 : c0 < 65536) (h1 : c1 < 65536) :
    (min ((c0 >>> 11) * 255 / 31) ((c1 >>> 11) * 255 / 31)
        ≤ DXTToRGB [c0 % 256, c0 / 256, c1 % 256, c1 / 256, q0, q1, q2, q3] i j % 256 ∧
      DXTToRGB [c0 % 256, c0 / 256, c1 % 256, c1 / 256, q0, q1, q2, q3] i j % 256
        ≤ max ((c0 >>> 11) * 255 / 31) ((c1 >>> 11) * 255 / 31)) ∧
    (min (((c0 >>> 5) &&& 63) * 255 / 63) (((c1 >>> 5) &&& 63) * 255 / 63)
        ≤ DXTToRGB [c0 % 256, c0 / 256, c1 % 256, c1 / 256, q0, q1, q2, q3] i j / 2 ^ 8 % 256 ∧
      DXTToRGB [c0 % 256, c0 / 256, c1 % 256, c1 / 256, q0, q1, q2, q3] i j / 2 ^ 8 % 256
        ≤ max (((c0 >>> 5) &&& 63) * 255 / 63) (((c1 >>> 5) &&& 63) * 255 / 63)) ∧
    (min ((c0 &&& 31) * 255 / 31) ((c1 &&& 31) * 255 / 31)
        ≤ DXTToRGB [c0 % 256, c0 / 256, c1 % 256, c1 / 256, q0, q1, q2, q3] i j / 2 ^ 16 % 256 ∧
      DXTToRGB [c0 % 256, c0 / 256, c1 % 256, c1 / 256, q0, q1, q2, q3] i j / 2 ^ 16 % 256
        ≤ max ((c0 &&& 31) * 255 / 31) ((c1 &&& 31) * 255 / 31)) := by
  have hr0 : c0 >>> 11 < 32 := by rw [Nat.shiftRight_eq_div_pow]; omega
  have hr1 : c1 >>> 11 < 32 := by rw [Nat.shiftRight_eq_div_pow]; omega
  have hg0 : (c0 >>> 5) &&& 0x3F < 64 := Nat.and_lt_two_pow _ (by norm_num : 0x3F < 2 ^ 6)
  have hg1 : (c1 >>> 5) &&& 0x3F < 64 := Nat.and_lt_two_pow _ (by norm_num : 0x3F < 2 ^ 6)
  have hb0 : c0 &&& 0x1F < 32 := Nat.and_lt_two_pow _ (by norm_num : 0x1F < 2 ^ 5)
  have hb1 : c1 &&& 0x1F < 32 := Nat.and_lt_two_pow _ (by norm_num : 0x1F < 2 ^ 5)
  have er0 := expand5_lt _ hr0
  have er1 := expand5_lt _ hr1
  have eg0 := expand6_lt _ hg0
  have eg1 := expand6_lt _ hg1
  have eb0 := expand5_lt _ hb0
  have eb1 := expand5_lt _ hb1
  generalize hR0 : (c0 >>> 11) * 0xFF / 0x1F = R0 at er0
  generalize hR1 : (c1 >>> 11) * 0xFF / 0x1F = R1 at er1
  generalize hG0 : ((c0 >>> 5) &&& 0x3F) * 0xFF / 0x3F = G0 at eg0
  generalize hG1 : ((c1 >>> 5) &&& 0x3F) * 0xFF / 0x3F = G1 at eg1
  generalize hB0 : (c0 &&& 0x1F) * 0xFF / 0x1F = B0 at eb0
  generalize hB1 : (c1 &&& 0x1F) * 0xFF / 0x1F = B1 at eb1
  have hv : DXTToRGB [c0 % 256, c0 / 256, c1 % 256, c1 / 256, q0, q1, q2, q3] i j
      = (B0 <<< 16 ||| G0 <<< 8 ||| R0) ∨
    DXTToRGB [c0 % 256, c0 / 256, c1 % 256, c1 / 256, q0, q1, q2, q3] i j
      = (B1 <<< 16 ||| G1 <<< 8 ||| R1) ∨
    DXTToRGB [c0 % 256, c0 / 256, c1 % 256, c1 / 256, q0, q1, q2, q3] i j
      = (((B0 * 2 + B1) / 3) <<< 16 ||| ((G0 * 2 + G1) / 3) <<< 8 ||| ((R0 * 2 + R1) / 3)) ∨
    DXTToRGB [c0 % 256, c0 / 256, c1 % 256, c1 / 256, q0, q1, q2, q3] i j
      = (((B0 + B1 * 2) / 3) <<< 16 ||| ((G0 + G1 * 2) / 3) <<< 8 ||| ((R0 + R1 * 2) / 3)) := by
    unfold DXTToRGB
    simp only [List.getD_cons_zero, List.getD_cons_succ, le16_join, hR0, hR1, hG0, hG1, hB0, hB1,
      Nat.mod_eq_of_lt er0, Nat.mod_eq_of_lt er1, Nat.mod_eq_of_lt eg0, Nat.mod_eq_of_lt eg1,
      Nat.mod_eq_of_lt eb0, Nat.mod_eq_of_lt eb1]
    split
    · exact Or.inl rfl
    · split
      · exact Or.inr (Or.inl rfl)
      · split
        · exact Or.inr (Or.inr (Or.inl rfl))
        · exact Or.inr (Or.inr (Or.inr rfl))
  have mr := mix_between R0 R1
  have mg := mix_between G0 G1
  have mb := mix_between B0 B1
  rcases hv with hv | hv | hv | hv
  · obtain ⟨b0, b1, b2⟩ := rgb_bytes R0 G0 B0 er0 eg0 eb0
    rw [hv, b0, b1, b2]
    exact ⟨⟨Nat.min_le_left _ _, Nat.le_max_left _ _⟩, ⟨Nat.min_le_left _ _, Nat.le_max_left _ _⟩,
      ⟨Nat.min_le_left _ _, Nat.le_max_left _ _⟩⟩
  · obtain ⟨b0, b1, b2⟩ := rgb_bytes R1 G1 B1 er1 eg1 eb1
    rw [hv, b0, b1, b2]
    exact ⟨⟨Nat.min_le_right _ _, Nat.le_max_right _ _⟩,
      ⟨Nat.min_le_right _ _, Nat.le_max_right _ _⟩,
      ⟨Nat.min_le_right _ _, Nat.le_max_right _ _⟩⟩
  · obtain ⟨b0, b1, b2⟩ := rgb_bytes ((R0 * 2 + R1) / 3) ((G0 * 2 + G1) / 3) ((B0 * 2 + B1) / 3)
      (by omega) (by omega) (by omega)
    rw [hv, b0, b1, b2]
    exact ⟨⟨mr.1, mr.2.1⟩, ⟨mg.1, mg.2.1⟩, ⟨mb.1, mb.2.1⟩⟩
  · obtain ⟨b0, b1, b2⟩ := rgb_bytes ((R0 + R1 * 2) / 3) ((G0 + G1 * 2) / 3) ((B0 + B1 * 2) / 3)
      (by omega) (by omega) (by omega)
    rw [hv, b0, b1, b2]
    exact ⟨⟨mr.2.2.1, mr.2.2.2⟩, ⟨mg.2.2.1, mg.2.2.2⟩, ⟨mb.2.2.1, mb.2.2.2⟩⟩

theorem DXTToRGB_between_witness :
    (min ((0xF800 >>> 11) * 255 / 31) ((0x001F >>> 11) * 255 / 31)
        ≤ DXTToRGB [0xF800 % 256, 0xF800 / 256, 0x001F % 256, 0x001F / 256, 0xE4, 0, 0, 0] 2 0
          % 256 ∧
      DXTToRGB [0xF800 % 256, 0xF800 / 256, 0x001F % 256, 0x001F / 256, 0xE4, 0, 0, 0] 2 0 % 256
        ≤ max ((0xF800 >>> 11) * 255 / 31) ((0x001F >>> 11) * 255 / 31)) ∧
    (min (((0xF800 >>> 5) &&& 63) * 255 / 63) (((0x001F >>> 5) &&& 63) * 255 / 63)
        ≤ DXTToRGB [0xF800 % 256, 0xF800 / 256, 0x001F % 256, 0x001F / 256, 0xE4, 0, 0, 0] 2 0
          / 2 ^ 8 % 256 ∧
      DXTToRGB [0xF800 % 256, 0xF800 / 256, 0x001F % 256, 0x001F / 256, 0xE4, 0, 0, 0] 2 0
          / 2 ^ 8 % 256
        ≤ max (((0xF800 >>> 5) &&& 63) * 255 / 63) (((0x001F >>> 5) &&& 63) * 255 / 63)) ∧
    (min ((0xF800 &&& 31) * 255 / 31) ((0x001F &&& 31) * 255 / 31)
        ≤ DXTToRGB [0xF800 % 256, 0xF800 / 256, 0x001F % 256, 0x001F / 256, 0xE4, 0, 0, 0] 2 0
          / 2 ^ 16 % 256 ∧
      DXTToRGB [0xF800 % 256, 0xF800 / 256, 0x001F % 256, 0x001F / 256, 0xE4, 0, 0, 0] 2 0
          / 2 ^ 16 % 256
        ≤ max ((0xF800 &&& 31) * 255 / 31) ((0x001F &&& 31) * 255 / 31)) :=
  DXTToRGB_between 0xF800 0x001F 0xE4 0 0 0 2 0 (by decide) (by decide)

/-- C14: for `alpha0 > alpha1` the alpha values form a non-increasing ramp between the
endpoints: `a(0) = alpha0 ≥ a(2) ≥ a(3) ≥ a(4) ≥ a(5) ≥ a(6) ≥ a(7) ≥ alpha1 = a(1)`. -/
theorem alphaValue_ramp (alpha0 alpha1 : Nat) (h0 : alpha0 < 256) (h : alpha1 < alpha0) :
    alphaValue alpha0 alpha1 0 = alpha0 ∧
    alphaValue alpha0 alpha1 2 ≤ alphaValue alpha0 alpha1 0 ∧
    alphaValue alpha0 alpha1 3 ≤ alphaValue alpha0 alpha1 2 ∧
    alphaValue alpha0 alpha1 4 ≤ alphaValue alpha0 alpha1 3 ∧
    alphaValue alpha0 alpha1 5 ≤ alphaValue alpha0 alpha1 4 ∧
    alphaValue alpha0 alpha1 6 ≤ alphaValue alpha0 alpha1 5 ∧
    alphaValue alpha0 alpha1 7 ≤ alphaValue alpha0 alpha1 6 ∧
    alpha1 ≤ alphaValue alpha0 alpha1 7 ∧
    alphaValue alpha0 alpha1 1 = alpha1 := by
  have h1 : alpha1 < 256 := by omega
  have m2 : (alpha0 * (8 - 2) + alpha1 * (2 - 1)) / 7 % 256
      = (alpha0 * (8 - 2) + alpha1 * (2 - 1)) / 7 := Nat.mod_eq_of_lt (by omega)
  have m3 : (alpha0 * (8 - 3) + alpha1 * (3 - 1)) / 7 % 256
      = (alpha0 * (8 - 3) + alpha1 * (3 - 1)) / 7 := Nat.mod_eq_of_lt (by omega)
  have m4 : (alpha0 * (8 - 4) + alpha1 * (4 - 1)) / 7 % 256
      = (alpha0 * (8 - 4) + alpha1 * (4 - 1)) / 7 := Nat.mod_eq_of_lt (by omega)
  have m5 : (alpha0 * (8 - 5) + alpha1 * (5 - 1)) / 7 % 256
      = (alpha0 * (8 - 5) + alpha1 * (5 - 1)) / 7 := Nat.mod_eq_of_lt (by omega)
  have m6 : (alpha0 * (8 - 6) + alpha1 * (6 - 1)) / 7 % 256
      = (alpha0 * (8 - 6) + alpha1 * (6 - 1)) / 7 := Nat.mod_eq_of_lt (by omega)
  have m7 : (alpha0 * (8 - 7) + alpha1 * (7 - 1)) / 7 % 256
      = (alpha0 * (8 - 7) + alpha1 * (7 - 1)) / 7 := Nat.mod_eq_of_lt (by omega)
  have hgt : alpha0 > alpha1 := h
  simp only [alphaValue, hgt, if_true, m2, m3, m4, m5, m6, m7]
  refine ⟨by simp, ?_, ?_, ?_, ?_, ?_, ?_, ?_, by simp⟩ <;> simp <;> omega

theorem alphaValue_ramp_witness :
    alphaValue 200 10 0 = 200 ∧
    alphaValue 200 10 2 ≤ alphaValue 200 10 0 ∧
    alphaValue 200 10 3 ≤ alphaValue 200 10 2 ∧
    alphaValue 200 10 4 ≤ alphaValue 200 10 3 ∧
    alphaValue 200 10 5 ≤ alphaValue 200 10 4 ∧
    alphaValue 200 10 6 ≤ alphaValue 200 10 5 ∧
    alphaValue 200 10 7 ≤ alphaValue 200 10 6 ∧
    10 ≤ alphaValue 200 10 7 ∧
    alphaValue 200 10 1 = 10 :=
  alphaValue_ramp 200 10 (by decide) (by decide)

theorem alpha_bits (bl bh s : Nat) (hbl : bl < 256) (hs : s < 8) :
    (bl / 2 ^ s ||| bh <<< (8 - s)) % 8 % 256 = (bl / 2 ^ s + bh * 2 ^ (8 - s)) % 8 := by
  have hlt : bl / 2 ^ s < 2 ^ (8 - s) := by
    apply Nat.div_lt_of_lt_mul
    rw [← Nat.pow_add, show s + (8 - s) = 8 by omega]
    exact hbl
  have h := Nat.mul_add_lt_is_or hlt bh
  rw [Nat.or_comm, Nat.shiftLeft_eq, Nat.mul_comm bh, ← h, Nat.mul_comm, Nat.add_comm]
  omega

/-- C19: for every 16-byte block and every in-block pixel `(col, row)` the 3-bit alpha
code assembled from the bytes `pointer[2 + bitpos/8]` and `pointer[3 + bitpos/8]` is
`(F >> (3*(row*4 + col))) & 7` for the 48-bit little-endian integer `F` of the block bytes
2..7; byte 8, the colour byte read for the bit positions 42 and 45, has no influence. -/
theorem alphaCode_field (a0 a1 b2 b3 b4 b5 b6 b7 c8 c9 c10 c11 c12 c13 c14 c15 col row : Nat)
    (h2 : b2 < 256) (h3 : b3 < 256) (h4 : b4 < 256) (h5 : b5 < 256) (h6 : b6 < 256)
    (h7 : b7 < 256) (hcol : col < 4) (hrow : row < 4) :
    alphaCode [a0, a1, b2, b3, b4, b5, b6, b7, c8, c9, c10, c11, c12, c13, c14, c15] col row
      = ((b2 + b3 * 2 ^ 8 + b4 * 2 ^ 16 + b5 * 2 ^ 24 + b6 * 2 ^ 32 + b7 * 2 ^ 40)
          >>> (3 * (row * 4 + col))) &&& 7 := by
  unfold alphaCode
  interval_cases col <;> interval_cases row <;>
    simp only [and_3_eq_mod, Nat.reduceMod, Nat.reduceMul, Nat.reduceAdd, Nat.reduceDiv,
      Nat.zero_mul, Nat.zero_add, Nat.add_zero, Nat.one_mul, List.getD_cons_zero,
      List.getD_cons_succ, and_7_eq_mod _, Nat.shiftRight_eq_div_pow]
  all_goals
    rw [alpha_bits _ _ _ (by assumption) (by norm_num)]
    omega

theorem alphaCode_field_witness :
    alphaCode [10, 200, 0x53, 0x80, 3, 0, 0xAB, 0xCD, 9, 9, 9, 9, 9, 9, 9, 9] 3 3
      = ((0x53 + 0x80 * 2 ^ 8 + 3 * 2 ^ 16 + 0 * 2 ^ 24 + 0xAB * 2 ^ 32 + 0xCD * 2 ^ 40)
          >>> (3 * (3 * 4 + 3))) &&& 7 :=
  alphaCode_field 10 200 0x53 0x80 3 0 0xAB 0xCD 9 9 9 9 9 9 9 9 3 3 (by decide) (by decide)
    (by decide) (by decide) (by decide) (by decide) (by decide) (by decide)
/-! ## The pixels of `decodeRGBA8` -/

theorem forLoop_post {σ : Type} (body : Nat → σ → Except Fault σ) (I : Nat → σ → Prop)
    (n : Nat) :
    ∀ (i : Nat) (s s2 : σ), forLoop body n i s = .ok s2 → I i s →
      (∀ j t t2, i ≤ j → j < i + n → I j t → body j t = .ok t2 → I (j + 1) t2) →
      I (i + n) s2 := by
  induction n with
  | zero =>
    intro i s s2 h hI _
    simp [forLoop] at h
    rw [← h]; exact hI
  | succ n ih =>
    intro i s s2 h hI hbody
    unfold forLoop at h
    cases hb : body i s with
    | error e => simp [hb] at h
    | ok t =>
      simp only [hb] at h
      have hI2 := hbody i s t (le_refl _) (by omega) hI hb
      have := ih (i + 1) t s2 h hI2 (fun j u u2 hj hj2 hu hbu =>
        hbody j u u2 (by omega) (by omega) hu hbu)
      rw [show i + (n + 1) = i + 1 + n by omega]
      exact this

theorem readAt_some (buf : List Nat) (off n : Nat) (b : List Nat)
    (h : readAt buf off n = some b) : off + n ≤ buf.length ∧ b = (buf.drop off).take n := by
  unfold readAt at h
  split at h
  · injection h with h
    exact ⟨by assumption, h.symm⟩
  · simp at h

theorem writeAt_some (buf : List Nat) (off : Nat) (bytes o : List Nat)
    (h : writeAt buf off bytes = some o) :
    off + bytes.length ≤ buf.length ∧
      o = buf.take off ++ bytes ++ buf.drop (off + bytes.length) := by
  unfold writeAt at h
  split at h
  · injection h with h
    exact ⟨by assumption, h.symm⟩
  · simp at h

theorem pixelRGBA8_some (w : Nat) (data : List Nat) (y x : Nat) (u u2 : List Nat)
    (h : pixelRGBA8 w data y x u = .ok u2) :
    (posRGBA8 x y w * 4) % 2 ^ 32 + 4 ≤ data.length ∧
    ((y * w + x) * 4) % 2 ^ 32 + 4 ≤ u.length ∧
    u2 = u.take (((y * w + x) * 4) % 2 ^ 32)
      ++ (data.drop ((posRGBA8 x y w * 4) % 2 ^ 32)).take 4
      ++ u.drop (((y * w + x) * 4) % 2 ^ 32 + 4) := by
  unfold pixelRGBA8 at h
  simp only at h
  cases hr : readAt data (posRGBA8 x y w * 4 % 2 ^ 32) 4 with
  | none => rw [hr] at h; simp at h
  | some px =>
    rw [hr] at h
    simp only at h
    cases hw : writeAt u ((y * w + x) * 4 % 2 ^ 32) px with
    | none => rw [hw] at h; simp at h
    | some o =>
      rw [hw] at h
      simp only at h
      injection h with h
      obtain ⟨r1, r2⟩ := readAt_some _ _ _ _ hr
      obtain ⟨w1, w2⟩ := writeAt_some _ _ _ _ hw
      have hl : px.length = 4 := by rw [r2]; simp; omega
      rw [hl] at w1 w2
      refine ⟨r1, w1, ?_⟩
      rw [← h, w2, r2]

theorem splice_length (u px : List Nat) (D : Nat) (hD : D + px.length ≤ u.length) :
    (u.take D ++ px ++ u.drop (D + px.length)).length = u.length := by
  simp
  omega

theorem splice_get_lt (u px : List Nat) (D i : Nat) (hD : D + px.length ≤ u.length)
    (hi : i < D) : (u.take D ++ px ++ u.drop (D + px.length))[i]? = u[i]? := by
  have hl : (u.take D).length = D := by simp; omega
  rw [List.append_assoc, List.getElem?_append_left (by rw [hl]; exact hi),
    List.getElem?_take_of_lt hi]

theorem splice_get_mid (u px : List Nat) (D k : Nat) (hD : D + px.length ≤ u.length)
    (hk : k < px.length) : (u.take D ++ px ++ u.drop (D + px.length))[D + k]? = px[k]? := by
  have hl : (u.take D).length = D := by simp; omega
  rw [List.append_assoc, List.getElem?_append_right (by rw [hl]; omega), hl,
    Nat.add_sub_cancel_left, List.getElem?_append_left hk]

/-- When `decodeRGBA8` succeeds, every store was inside the buffer of
`w * h * 4 % 2^32` bytes. -/
theorem decodeRGBA8_stores (w h : Nat) (data out : List Nat)
    (hok : decodeRGBA8 w h data = .ok out) :
    out.length = (w * h * 4) % 2 ^ 32 ∧
    ∀ y x, y < h → x < w → ((y * w + x) * 4) % 2 ^ 32 + 4 ≤ (w * h * 4) % 2 ^ 32 := by
  have key := @forLoop_post (List Nat)
    (fun y out => forLoop (fun x o => pixelRGBA8 w data y x o) w 0 out)
    (fun y (o : List Nat) => o.length = (w * h * 4) % 2 ^ 32 ∧
      ∀ y2 x2, y2 < y → x2 < w → ((y2 * w + x2) * 4) % 2 ^ 32 + 4 ≤ (w * h * 4) % 2 ^ 32)
    h 0 _ out hok ⟨List.length_replicate _ _, fun y2 x2 hy2 _ => absurd hy2 (Nat.not_lt_zero _)⟩
    (by
      intro y t t2 _ _ hI hrow
      obtain ⟨hlen, hprev⟩ := hI
      have inner := @forLoop_post (List Nat) (fun x o => pixelRGBA8 w data y x o)
        (fun x (o : List Nat) => o.length = (w * h * 4) % 2 ^ 32 ∧
          ∀ x2, x2 < x → ((y * w + x2) * 4) % 2 ^ 32 + 4 ≤ (w * h * 4) % 2 ^ 32)
        w 0 t t2 hrow ⟨hlen, fun x2 hx2 => absurd hx2 (Nat.not_lt_zero _)⟩
        (by
          intro x u u2 _ _ hJ hpx
          obtain ⟨hul, hxs⟩ := hJ
          obtain ⟨_, hw, hu2⟩ := pixelRGBA8_some w data y x u u2 hpx
          have hpl : ((data.drop ((posRGBA8 x y w * 4) % 2 ^ 32)).take 4).length = 4 := by
            simp; omega
          refine ⟨?_, ?_⟩
          · rw [hu2]
            have := splice_length u ((data.drop ((posRGBA8 x y w * 4) % 2 ^ 32)).take 4)
              (((y * w + x) * 4) % 2 ^ 32) (by rw [hpl]; exact hw)
            rw [hpl] at this
            rw [this, hul]
          · intro x2 hx2
            rcases Nat.lt_succ_iff_lt_or_eq.mp hx2 with hlt | rfl
            · exact hxs x2 hlt
            · rw [← hul]; exact hw)
      rw [Nat.zero_add] at inner
      refine ⟨inner.1, ?_⟩
      intro y2 x2 hy2 hx2
      rcases Nat.lt_succ_iff_lt_or_eq.mp hy2 with hlt | rfl
      · exact hprev y2 x2 hlt hx2
      · exact inner.2 x2 hx2)
  rw [Nat.zero_add] at key
  exact key

theorem decodeRGBA8_nowrap (w h : Nat) (data out : List Nat)
    (hok : decodeRGBA8 w h data = .ok out) : w * h * 4 < 2 ^ 32 := by
  obtain ⟨_, hst⟩ := decodeRGBA8_stores w h data out hok
  by_contra hc
  have hwh : 2 ^ 30 ≤ w * h := by omega
  have hw : 0 < w := by
    rcases Nat.eq_zero_or_pos w with h0 | h0
    · rw [h0] at hwh; simp at hwh
    · exact h0
  have hp : 2 ^ 30 - 1 < w * h := by omega
  have hy : (2 ^ 30 - 1) / w < h := Nat.div_lt_of_lt_mul hp
  have hx : (2 ^ 30 - 1) % w < w := Nat.mod_lt _ hw
  have := hst _ _ hy hx
  rw [Nat.div_add_mod'] at this
  have hA : (w * h * 4) % 2 ^ 32 < 2 ^ 32 := Nat.mod_lt _ (by norm_num)
  omega

theorem pixel_index_lt (w h x y : Nat) (hx : x < w) (hy : y < h) : y * w + x < w * h := by
  calc y * w + x < y * w + w := by omega
    _ = w * (y + 1) := by ring
    _ ≤ w * h := Nat.mul_le_mul_left _ (by omega)

theorem pixel_index_mod (w x y : Nat) (hx : x < w) : (y * w + x) % w = x := by
  rw [Nat.add_comm, Nat.add_mul_mod_self_right, Nat.mod_eq_of_lt hx]

theorem pixel_index_div (w x y : Nat) (hx : x < w) : (y * w + x) / w = y := by
  rw [Nat.add_comm, Nat.add_mul_div_right _ _ (by omega), Nat.div_eq_of_lt hx, Nat.zero_add]

/-- When `decodeRGBA8` succeeds, the pixel with linear index `q` holds the four input
bytes from the byte offset the code computes for it. -/
theorem decodeRGBA8_content (w h : Nat) (data out : List Nat)
    (hok : decodeRGBA8 w h data = .ok out) :
    ∀ q k, q < h * w → k < 4 →
      out[q * 4 + k]? = data[(posRGBA8 (q % w) (q / w) w * 4) % 2 ^ 32 + k]? := by
  have hnw := decodeRGBA8_nowrap w h data out hok
  have key := @forLoop_post (List Nat)
    (fun y out => forLoop (fun x o => pixelRGBA8 w data y x o) w 0 out)
    (fun y (o : List Nat) => ∀ q k, q < y * w → k < 4 →
      o[q * 4 + k]? = data[(posRGBA8 (q % w) (q / w) w * 4) % 2 ^ 32 + k]?)
    h 0 _ out hok (fun q k hq _ => by simp at hq)
    (by
      intro y t t2 _ hy hI hrow
      have inner := @forLoop_post (List Nat) (fun x o => pixelRGBA8 w data y x o)
        (fun x (o : List Nat) => ∀ q k, q < y * w + x → k < 4 →
          o[q * 4 + k]? = data[(posRGBA8 (q % w) (q / w) w * 4) % 2 ^ 32 + k]?)
        w 0 t t2 hrow hI
        (by
          intro x u u2 _ hx hJ hpx
          have hx2 : x < w := by omega
          have hy2 : y < h := by omega
          have hidx := pixel_index_lt w h x y hx2 hy2
          obtain ⟨hr, hw, hu2⟩ := pixelRGBA8_some w data y x u u2 hpx
          have hD : ((y * w + x) * 4) % 2 ^ 32 = (y * w + x) * 4 :=
            Nat.mod_eq_of_lt (by omega)
          rw [hD] at hw hu2
          have hpl : ((data.drop ((posRGBA8 x y w * 4) % 2 ^ 32)).take 4).length = 4 := by
            simp; omega
          intro q k hq hk
          have hq2 : q < y * w + x ∨ q = y * w + x := by omega
          rcases hq2 with hlt | heq
          · rw [hu2, ← hJ q k hlt hk]
            have := splice_get_lt u ((data.drop ((posRGBA8 x y w * 4) % 2 ^ 32)).take 4)
              ((y * w + x) * 4) (q * 4 + k) (by rw [hpl]; exact hw) (by omega)
            rw [hpl] at this
            exact this
          · have := splice_get_mid u ((data.drop ((posRGBA8 x y w * 4) % 2 ^ 32)).take 4)
              ((y * w + x) * 4) k (by rw [hpl]; exact hw) (by rw [hpl]; exact hk)
            rw [hpl] at this
            have hqm : q % w = x := by rw [heq]; exact pixel_index_mod w x y hx2
            have hqd : q / w = y := by rw [heq]; exact pixel_index_div w x y hx2
            rw [hqm, hqd, hu2, heq, this, List.getElem?_take_of_lt hk, List.getElem?_drop])
      intro q k hq hk
      exact inner q k (by rw [Nat.zero_add]; rw [Nat.add_mul] at hq; omega) hk)
  rw [Nat.zero_add] at key
  exact key

/-- For widths up to `2^26` the multiplication `pos *= 4` does not wrap. -/
theorem posRGBA8_lt_of_width (w h x y : Nat) (hw : w ≤ 2 ^ 26) (hx : x < w) (hy : y < h)
    (hwh : w * h * 4 < 2 ^ 32) : posRGBA8 x y w < 2 ^ 30 := by
  have hidx := pixel_index_lt w h x y hx hy
  have t0 : ((y &&& 0xFFFFFFF0) * w) % 2 ^ 32 < 2 ^ 30 := by
    have h1 : (y &&& 0xFFFFFFF0) * w ≤ y * w := Nat.mul_le_mul_right _ Nat.and_le_left
    have h2 := Nat.mod_le ((y &&& 0xFFFFFFF0) * w) (2 ^ 32)
    omega
  have t1 : x &&& 3 < 2 ^ 30 := by
    have : x &&& 3 ≤ 3 := Nat.and_le_right
    omega
  have t2 : (x &&& 4) <<< 1 < 2 ^ 30 := by
    have : x &&& 4 ≤ 4 := Nat.and_le_right
    rw [Nat.shiftLeft_eq]; omega
  have t3 : (x &&& 8) <<< 3 < 2 ^ 30 := by
    have : x &&& 8 ≤ 8 := Nat.and_le_right
    rw [Nat.shiftLeft_eq]; omega
  have t4 : ((x &&& 0xFFFFFFF8) <<< 4) % 2 ^ 32 < 2 ^ 30 := by
    have h1 : x &&& 0xFFFFFFF8 ≤ x := Nat.and_le_left
    have h2 := Nat.mod_le ((x &&& 0xFFFFFFF8) <<< 4) (2 ^ 32)
    rw [Nat.shiftLeft_eq] at h2 ⊢
    omega
  have t5 : (y &&& 0xE) <<< 3 < 2 ^ 30 := by
    have : y &&& 0xE ≤ 0xE := Nat.and_le_right
    rw [Nat.shiftLeft_eq]; omega
  have t6 : (y &&& 0x10) <<< 4 < 2 ^ 30 := by
    have : y &&& 0x10 ≤ 0x10 := Nat.and_le_right
    rw [Nat.shiftLeft_eq]; omega
  have t7 : (y &&& 0x21) <<< 2 < 2 ^ 30 := by
    have : y &&& 0x21 ≤ 0x21 := Nat.and_le_right
    rw [Nat.shiftLeft_eq]; omega
  unfold posRGBA8
  exact Nat.xor_lt_two_pow (Nat.xor_lt_two_pow (Nat.xor_lt_two_pow (Nat.xor_lt_two_pow
    (Nat.xor_lt_two_pow (Nat.xor_lt_two_pow (Nat.xor_lt_two_pow t0 t1) t2) t3) t4) t5) t6) t7

/-- C17: whenever `decodeRGBA8` succeeds, for every pixel `(x, y)` of the grid the output
bytes `(y*w + x)*4 + k`, `k = 0..3`, are the input bytes `pos*4 + k` in the same order,
where `pos` is the swizzle value of lines 21–28 and `pos*4` is computed in
`unsigned int` like everything else: it is `4*pos` as soon as `pos < 2^30`, which holds
for every width up to `2^26`; the output has `w * h * 4` bytes. -/
theorem decodeRGBA8_pixels (w h : Nat) (data out : List Nat)
    (hok : decodeRGBA8 w h data = .ok out) (x y k : Nat) (hx : x < w) (hy : y < h)
    (hk : k < 4) :
    out.length = w * h * 4 ∧
    ∃ b, out[(y * w + x) * 4 + k]? = some b ∧
      data[(posRGBA8 x y w * 4) % 2 ^ 32 + k]? = some b ∧
      (posRGBA8 x y w < 2 ^ 30 → data[4 * posRGBA8 x y w + k]? = some b) ∧
      (w ≤ 2 ^ 26 → data[4 * posRGBA8 x y w + k]? = some b) := by
  have hnw := decodeRGBA8_nowrap w h data out hok
  obtain ⟨hlen, _⟩ := decodeRGBA8_stores w h data out hok
  rw [Nat.mod_eq_of_lt hnw] at hlen
  have hidx := pixel_index_lt w h x y hx hy
  have hc := decodeRGBA8_content w h data out hok (y * w + x) k
    (by rw [Nat.mul_comm h w]; exact hidx) hk
  rw [pixel_index_mod w x y hx, pixel_index_div w x y hx] at hc
  have hlt : (y * w + x) * 4 + k < out.length := by omega
  have hwide : posRGBA8 x y w < 2 ^ 30 → data[4 * posRGBA8 x y w + k]?
      = some out[(y * w + x) * 4 + k] := by
    intro hp
    rw [← List.getElem?_eq_getElem hlt, hc, Nat.mod_eq_of_lt (by omega), Nat.mul_comm]
  refine ⟨hlen, out[(y * w + x) * 4 + k], List.getElem?_eq_getElem hlt, ?_, hwide, ?_⟩
  · rw [← hc, List.getElem?_eq_getElem hlt]
  · intro hw
    exact hwide (posRGBA8_lt_of_width w h x y hw hx hy hnw)

theorem decodeRGBA8_pixels_witness :
    [1, 2, 3, 4, 5, 6, 7, 8].length = 2 * 1 * 4 ∧
    ∃ b, [1, 2, 3, 4, 5, 6, 7, 8][(0 * 2 + 1) * 4 + 2]? = some b ∧
      [1, 2, 3, 4, 5, 6, 7, 8][(posRGBA8 1 0 2 * 4) % 2 ^ 32 + 2]? = some b ∧
      (posRGBA8 1 0 2 < 2 ^ 30 → [1, 2, 3, 4, 5, 6, 7, 8][4 * posRGBA8 1 0 2 + 2]? = some b) ∧
      (2 ≤ 2 ^ 26 → [1, 2, 3, 4, 5, 6, 7, 8][4 * posRGBA8 1 0 2 + 2]? = some b) :=
  decodeRGBA8_pixels 2 1 [1, 2, 3, 4, 5, 6, 7, 8] [1, 2, 3, 4, 5, 6, 7, 8] (by decide) 1 0 2
    (by decide) (by decide) (by decide)

/-- C20: for every width `2^k` with `5 ≤ k ≤ 13` and every height with
`1 ≤ height ≤ 8192`, the offset function `pos(x, y, width)` of `decodeRGBA8` is injective
on the pixel grid `0 ≤ x < width`, `0 ≤ y < height`. -/
theorem posRGBA8_injective_pow2 (k h : Nat) (hk : 5 ≤ k) (hk2 : k ≤ 13)
    (h2 : h ≤ 8192) (x y x' y' : Nat) (hx : x < 2 ^ k) (hy : y < h) (hx' : x' < 2 ^ k)
    (hy' : y' < h) (hne : (x, y) ≠ (x', y')) :
    posRGBA8 x y (2 ^ k) ≠ posRGBA8 x' y' (2 ^ k) := by
  intro heq
  have hw : 2 ^ k ≤ 2 ^ 13 := Nat.pow_le_pow_right (by norm_num) hk2
  have hwh : 2 ^ k * h ≤ 2 ^ 32 :=
    calc 2 ^ k * h ≤ 2 ^ 13 * 8192 := Nat.mul_le_mul hw h2
      _ ≤ 2 ^ 32 := by norm_num
  obtain ⟨e1, e2⟩ := posRGBA8_eq_imp (2 ^ k) h (Or.inr ⟨k, hk, by omega, rfl, hwh⟩)
    x y x' y' hx hy hx' hy' heq
  exact hne (by rw [e1, e2])

theorem posRGBA8_injective_pow2_witness : posRGBA8 5 7 (2 ^ 6) ≠ posRGBA8 9 40 (2 ^ 6) :=
  posRGBA8_injective_pow2 6 100 (by decide) (by decide) (by decide) 5 7 9 40
    (by decide) (by decide) (by decide) (by decide) (by decide)

end Satoru
